import Mathlib

/-!
Verification development for the `page.js` client-side router
(`src/page.ts` and its bundled `path-to-regex.ts`).

Strings of the JavaScript source are modelled as `List Char`.  A JavaScript
function that can throw is modelled as returning an `Option`/`Except`
value, `none`/`.error` meaning that the call throws.

The compiled route regular expressions produced by `tokensToRegExp` are
modelled by priority-ordered backtracking matcher combinators: each fragment
of the regexp string that `tokensToRegExp` concatenates is mirrored by the
combinator denoting that fragment, so the structure of the builder is kept
in one-to-one correspondence with the source.
-/

set_option autoImplicit false

namespace PageJs

/-- Value of a hexadecimal digit, as accepted inside a JS percent-escape. -/
def hexVal (c : Char) : Option Nat :=
  if '0' ≤ c ∧ c ≤ '9' then some (c.toNat - '0'.toNat)
  else if 'a' ≤ c ∧ c ≤ 'f' then some (c.toNat - 'a'.toNat + 10)
  else if 'A' ≤ c ∧ c ≤ 'F' then some (c.toNat - 'A'.toNat + 10)
  else none

/-- First phase of `decodeURIComponent`: split the input into literal
characters and percent-escaped bytes.  A `%` that is not followed by two
hexadecimal digits makes the whole decode throw (`none`). -/
def percentTokens : List Char → Option (List (Sum Char Nat))
  | [] => some []
  | '%' :: a :: b :: rest =>
      match hexVal a, hexVal b, percentTokens rest with
      | some x, some y, some ts => some (Sum.inr (16 * x + y) :: ts)
      | _, _, _ => none
  | '%' :: _ => none
  | c :: rest =>
      match percentTokens rest with
      | some ts => some (Sum.inl c :: ts)
      | none => none

/-- Is `b` a UTF-8 continuation byte? -/
def isCont (b : Nat) : Bool := 128 ≤ b && b < 192

/-- Second phase of `decodeURIComponent`: the escaped bytes must form valid
UTF-8 sequences (no overlong forms, no surrogates, no lone continuation
bytes), otherwise the decode throws (`none`).  Literal characters pass
through unchanged. -/
def utf8Tokens : List (Sum Char Nat) → Option (List Char)
  | [] => some []
  | Sum.inl c :: rest =>
      match utf8Tokens rest with
      | some cs => some (c :: cs)
      | none => none
  | Sum.inr b :: rest =>
      if b < 128 then
        match utf8Tokens rest with
        | some cs => some (Char.ofNat b :: cs)
        | none => none
      else if 194 ≤ b && b ≤ 223 then
        match rest with
        | Sum.inr c1 :: rest1 =>
            if isCont c1 then
              match utf8Tokens rest1 with
              | some cs => some (Char.ofNat ((b - 192) * 64 + (c1 - 128)) :: cs)
              | none => none
            else none
        | _ => none
      else if 224 ≤ b && b ≤ 239 then
        match rest with
        | Sum.inr c1 :: Sum.inr c2 :: rest1 =>
            if (if b = 224 then 160 ≤ c1 && c1 ≤ 191
                else if b = 237 then 128 ≤ c1 && c1 ≤ 159
                else isCont c1) && isCont c2 then
              match utf8Tokens rest1 with
              | some cs =>
                  some (Char.ofNat ((b - 224) * 4096 + (c1 - 128) * 64 + (c2 - 128)) :: cs)
              | none => none
            else none
        | _ => none
      else if 240 ≤ b && b ≤ 244 then
        match rest with
        | Sum.inr c1 :: Sum.inr c2 :: Sum.inr c3 :: rest1 =>
            if (if b = 240 then 144 ≤ c1 && c1 ≤ 191
                else if b = 244 then 128 ≤ c1 && c1 ≤ 143
                else isCont c1) && isCont c2 && isCont c3 then
              match utf8Tokens rest1 with
              | some cs =>
                  some (Char.ofNat ((b - 240) * 262144 + (c1 - 128) * 4096 +
                    (c2 - 128) * 64 + (c3 - 128)) :: cs)
              | none => none
            else none
        | _ => none
      else none

/-- Model of JS `decodeURIComponent`; `none` models a thrown `URIError`. -/
def decodeURIComponentL (l : List Char) : Option (List Char) :=
  (percentTokens l).bind utf8Tokens

/-- Characters that JS `encodeURIComponent` leaves unchanged
(`uriAlpha`, digits and `uriMark`). -/
def uriUnreserved (c : Char) : Bool :=
  ('A' ≤ c && c ≤ 'Z') || ('a' ≤ c && c ≤ 'z') || ('0' ≤ c && c ≤ '9') ||
  c = '-' || c = '_' || c = '.' || c = '!' || c = '~' || c = '*' ||
  c = Char.ofNat 39 || c = '(' || c = ')'

/-- UTF-8 encoding of a unicode scalar value. -/
def utf8Bytes (n : Nat) : List Nat :=
  if n < 128 then [n]
  else if n < 2048 then [192 + n / 64, 128 + n % 64]
  else if n < 65536 then [224 + n / 4096, 128 + (n / 64) % 64, 128 + n % 64]
  else [240 + n / 262144, 128 + (n / 4096) % 64, 128 + (n / 64) % 64, 128 + n % 64]

/-- Uppercase hexadecimal digit. -/
def hexDigitU (n : Nat) : Char :=
  if n < 10 then Char.ofNat (48 + n) else Char.ofNat (55 + n)

/-- A single percent-escaped byte, `%XY` with uppercase hex. -/
def pctEncodeByte (b : Nat) : List Char := ['%', hexDigitU (b / 16), hexDigitU (b % 16)]

/-- Model of JS `encodeURIComponent` on a single character. -/
def encodeURIComponentChar (c : Char) : List Char :=
  if uriUnreserved c then [c] else ((utf8Bytes c.toNat).map pctEncodeByte).flatten

/-- Model of JS `encodeURIComponent`. -/
def encodeURIComponentL (l : List Char) : List Char :=
  (l.map encodeURIComponentChar).flatten

/-- `Page._decodeURLEncodedURIComponent` (src/page.ts): when URL-component
decoding is enabled, replace every `+` by a space and percent-decode;
otherwise return the value unchanged.  `none` models the `URIError` thrown
by `decodeURIComponent` on malformed input — the source has no catch. -/
def decodeURLEncodedURIComponent (decodeFlag : Bool) (val : List Char) : Option (List Char) :=
  if decodeFlag then decodeURIComponentL (val.map fun c => if c = '+' then ' ' else c)
  else some val

/-!  ## Matcher combinators

A `PatM` denotes a capture-free regexp fragment: applied to the remaining
subject it returns the list of possible remainders, in the backtracking
priority order of the JS regexp engine (first element = preferred). -/

/-- Priority-ordered capture-free matcher. -/
abbrev PatM := List Char → List (List Char)

/-- Character comparison under the `i` flag (JS canonicalises case). -/
def ciChar (ci : Bool) (c d : Char) : Bool :=
  if ci then c.toLower = d.toLower else c = d

/-- Strip a literal from the front of the subject (case-insensitively when
`ci` is set), returning the remainder. -/
def stripCi (ci : Bool) : List Char → List Char → Option (List Char)
  | [], s => some s
  | _ :: _, [] => none
  | c :: l, d :: s => if ciChar ci c d then stripCi ci l s else none

/-- Literal fragment (the escaped strings `escapeString` embeds). -/
def patLit (ci : Bool) (lit : List Char) : PatM := fun s =>
  match stripCi ci lit s with
  | some r => [r]
  | none => []

/-- Concatenation of fragments. -/
def patSeqP (a b : PatM) : PatM := fun s => (a s).flatMap b

/-- Negated character class `[^…]`. -/
def patNotIn (cls : List Char) : PatM := fun s =>
  match s with
  | [] => []
  | c :: r => if c ∈ cls then [] else [r]

/-- JS `.` (no `dotAll`): any character except line terminators. -/
def jsDotChar (c : Char) : Bool :=
  !(c == '\n' || c == '\r' || c == Char.ofNat 8232 || c == Char.ofNat 8233)

/-- The `.` fragment. -/
def patDot : PatM := fun s =>
  match s with
  | [] => []
  | c :: r => if jsDotChar c then [r] else []

/-- Greedy star, fuelled: more iterations are preferred; an iteration that
consumes nothing ends the loop (the JS empty-match rule). -/
def patStarG (body : PatM) : Nat → PatM
  | 0, s => [s]
  | fuel + 1, s =>
      (((body s).filter fun r => r.length < s.length).flatMap (patStarG body fuel)) ++ [s]

/-- Lazy star, fuelled: fewer iterations are preferred. -/
def patStarL (body : PatM) : Nat → PatM
  | 0, s => [s]
  | fuel + 1, s =>
      s :: ((body s).filter fun r => r.length < s.length).flatMap (patStarL body fuel)

/-- Greedy `X*` (fuel = subject length always suffices). -/
def patStarGreedy (body : PatM) : PatM := fun s => patStarG body s.length s

/-- Lazy `X+?` = one `X` then a lazy star. -/
def patPlusLazy (body : PatM) : PatM := fun s =>
  (body s).flatMap fun r => patStarL body r.length r

/-- The `(?=$)` lookahead: succeeds, consuming nothing, only at the end. -/
def patLookEnd : PatM := fun s => if s = [] then [s] else []

/-- Interpretation of the token `pattern` strings that page.js itself
generates: the default class `[^X]+?` (with `X` possibly `\`-escaped by
`escapeGroup`) and the wildcard `.*`.  Custom user sub-patterns are not
interpreted (`none`); no claim below depends on them. -/
def classBody : List Char → Option (List Char × List Char)
  | [] => none
  | ']' :: r => some ([], r)
  | '\\' :: c :: r => (classBody r).map fun p => (c :: p.1, p.2)
  | ['\\'] => none
  | c :: r => (classBody r).map fun p => (c :: p.1, p.2)

/-- See `classBody`. -/
def interpPattern (l : List Char) : Option PatM :=
  match l with
  | '[' :: '^' :: rest =>
      match classBody rest with
      | some (cls, ['+', '?']) => some (patPlusLazy (patNotIn cls))
      | _ => none
  | ['.', '*'] => some (patStarGreedy patDot)
  | _ => none

/-!  ## Tokens and `parse` (path-to-regex.ts) -/

/-- A capture token produced by `parse`.  Field names follow the source
(`Token` interface), except `prefix` → `pfx` and `repeat` → `rep`, which
are not usable as identifiers here. -/
structure Token where
  name : Sum (List Char) Nat
  pfx : List Char
  delimiter : List Char
  optional : Bool
  rep : Bool
  pattern : List Char
  deriving DecidableEq, Repr

/-- A parse result entry: a literal path fragment or a capture token. -/
abbrev PTok := Sum (List Char) Token

/-- JS `\w` (ASCII). -/
def isWordChar (c : Char) : Bool :=
  ('a' ≤ c && c ≤ 'z') || ('A' ≤ c && c ≤ 'Z') || ('0' ≤ c && c ≤ '9') || c = '_'

/-- Scan the body of a parenthesised group `((?:\\.|[^()])+)` up to the
closing `)`, keeping escape pairs verbatim; fails on `(`, on a dangling
`\`, on an unclosed group, and on an empty body.  (The source regexp could
in principle also close a group right after a lone `\` by backtracking;
that corner of custom sub-patterns is not modelled and not relied on.) -/
def grpContentAux : List Char → Option (List Char × List Char)
  | [] => none
  | ')' :: r => some ([], r)
  | '(' :: _ => none
  | '\\' :: c :: r => (grpContentAux r).map fun p => ('\\' :: c :: p.1, p.2)
  | ['\\'] => none
  | c :: r => (grpContentAux r).map fun p => (c :: p.1, p.2)

/-- See `grpContentAux`; the `+` demands a nonempty body. -/
def grpContent (l : List Char) : Option (List Char × List Char) :=
  match grpContentAux l with
  | some ([], _) => none
  | some p => some p
  | none => none

/-- The capture groups 3–7 of one `PATH_REGEXP` match. -/
structure InnerRes where
  name : Option (List Char)
  capture : Option (List Char)
  group : Option (List Char)
  suffix : Option Char
  asterisk : Bool
  deriving DecidableEq, Repr

/-- A `+`, `*` or `?` repetition suffix. -/
def isSuffixChar (c : Char) : Bool := c = '+' || c = '*' || c = '?'

/-- Read an optional suffix character. -/
def readSuffix (l : List Char) : Option Char × List Char :=
  match l with
  | c :: r => if isSuffixChar c then (some c, r) else (none, l)
  | [] => (none, [])

/-- The inner alternation of `PATH_REGEXP`:
`(?:\:(\w+)(?:\(((?:\\.|[^()])+)\))?|\(((?:\\.|[^()])+)\))([+*?])?|(\*)`. -/
def tryInner : List Char → Option (InnerRes × List Char)
  | [] => none
  | c :: rest =>
      if c = ':' then
        let nm := rest.takeWhile isWordChar
        if nm = [] then none
        else
          let r1 := rest.drop nm.length
          let capRes : Option (List Char) × List Char :=
            match r1 with
            | '(' :: r1a =>
                match grpContent r1a with
                | some (content, rr) => (some content, rr)
                | none => (none, r1)
            | _ => (none, r1)
          let sufRes := readSuffix capRes.2
          some ({ name := some nm, capture := capRes.1, group := none,
                  suffix := sufRes.1, asterisk := false }, sufRes.2)
      else if c = '(' then
        match grpContent rest with
        | some (content, rr) =>
            let sufRes := readSuffix rr
            some ({ name := none, capture := none, group := some content,
                    suffix := sufRes.1, asterisk := false }, sufRes.2)
        | none => none
      else if c = '*' then
        some ({ name := none, capture := none, group := none,
                suffix := none, asterisk := true }, rest)
      else none

/-- One attempt of `PATH_REGEXP` at the current position: the escaped-pair
alternative first, then the optional `[\/.]` prefix (tried with the prefix
before without, as the regexp engine does), then the inner alternation.
(A trailing lone `\` matches no alternative: the escape needs a following
character and `\` cannot start the second alternative.) -/
def tryMatchAt (l : List Char) : Option (Sum Char (Option Char × InnerRes) × List Char) :=
  match l with
  | [] => none
  | c :: rest =>
      if c = '\\' then
        match rest with
        | e :: rest2 => some (Sum.inl e, rest2)
        | [] => none
      else if c = '/' ∨ c = '.' then
        match tryInner rest with
        | some (ir, rr) => some (Sum.inr (some c, ir), rr)
        | none =>
            match tryInner (c :: rest) with
            | some (ir, rr) => some (Sum.inr (none, ir), rr)
            | none => none
      else
        match tryInner (c :: rest) with
        | some (ir, rr) => some (Sum.inr (none, ir), rr)
        | none => none

/-- `escapeGroup` of the source: escape `=!:$/()` inside a sub-pattern. -/
def escapeGroup (l : List Char) : List Char :=
  l.flatMap fun c =>
    if c = '=' || c = '!' || c = ':' || c = '$' || c = '/' || c = '(' || c = ')'
    then ['\\', c] else [c]

/-- Build a `Token` from one scanner match, mirroring the token-building
block of `parse` (`name || key++`, `prefix || ''`, `delimiter = prefix
|| '/'`, suffix flags, default/wildcard pattern, `escapeGroup`). -/
def mkToken (key : Nat) (pfxc : Option Char) (ir : InnerRes) : Token × Nat :=
  let nameV : Sum (List Char) Nat :=
    match ir.name with
    | some nm => Sum.inl nm
    | none => Sum.inr key
  let key' : Nat := match ir.name with | some _ => key | none => key + 1
  let pfxV : List Char := match pfxc with | some c => [c] | none => []
  let delimV : List Char := if pfxV = [] then ['/'] else pfxV
  let repV := ir.suffix = some '+' || ir.suffix = some '*'
  let optV := ir.suffix = some '?' || ir.suffix = some '*'
  let patV : List Char :=
    match ir.capture, ir.group with
    | some cp, _ => cp
    | none, some gp => gp
    | none, none => if ir.asterisk then ['.', '*'] else '[' :: '^' :: (delimV ++ [']', '+', '?'])
  ({ name := nameV, pfx := pfxV, delimiter := delimV, optional := optV,
     rep := repV, pattern := escapeGroup patV }, key')

/-- The scanning loop of `parse`: literal runs between matches are coalesced
into string tokens; escaped pairs contribute their bare character to the
literal run.  Fuel bounds the iteration count (one unit per inspected
position; the initial fuel `str.length` always suffices). -/
def goParse : Nat → List Char → List Char → List PTok → Nat → List PTok
  | _, [], path, toks, _ => toks ++ (if path = [] then [] else [Sum.inl path])
  | 0, l, path, toks, _ =>
      toks ++ (if path ++ l = [] then [] else [Sum.inl (path ++ l)])
  | fuel + 1, l, path, toks, key =>
      match tryMatchAt l with
      | some (Sum.inl e, rest) => goParse fuel rest (path ++ [e]) toks key
      | some (Sum.inr (pfxc, ir), rest) =>
          let tk := mkToken key pfxc ir
          goParse fuel rest []
            (toks ++ (if path = [] then [] else [Sum.inl path]) ++ [Sum.inr tk.1]) tk.2
      | none =>
          match l with
          | c :: rest => goParse fuel rest (path ++ [c]) toks key
          | [] => toks ++ (if path = [] then [] else [Sum.inl path])

/-- `parse` of path-to-regex.ts. -/
def parseL (str : List Char) : List PTok := goParse str.length str [] [] 0

/-!  ## `tokensToRegExp`, modelled as a capture-aware matcher -/

/-- The capture list of a match (`m[1..]`; `none` = an undefined group). -/
abbrev Caps := List (Option (List Char))

/-- Capture-aware matcher: possible (remainder, captures-so-far) pairs in
backtracking priority order. -/
abbrev CapsM := List Char → List (List Char × Caps)

/-- Empty fragment. -/
def epsC : CapsM := fun s => [(s, [])]

/-- Literal fragment. -/
def litC (ci : Bool) (lit : List Char) : CapsM := fun s =>
  (patLit ci lit s).map fun r => (r, [])

/-- Concatenation; captures are produced in left-to-right group order. -/
def seqC (a b : CapsM) : CapsM := fun s =>
  (a s).flatMap fun p => (b p.1).map fun q => (q.1, p.2 ++ q.2)

/-- A capture-free fragment lifted into `CapsM`. -/
def liftP (p : PatM) : CapsM := fun s => (p s).map fun r => (r, [])

/-- A capturing group around a capture-free fragment: the consumed text is
recorded. -/
def capC (p : PatM) : CapsM := fun s =>
  (p s).map fun r => (r, [some (s.take (s.length - r.length))])

/-- A greedy optional group containing `n` capture groups: when skipped,
those groups are undefined. -/
def optSkipC (inner : CapsM) (n : Nat) : CapsM := fun s =>
  inner s ++ [(s, List.replicate n none)]

/-- A greedy optional non-capturing group. -/
def optNoCapC (inner : CapsM) : CapsM := fun s => inner s ++ [(s, [])]

/-- The non-strict trailing allowance `(?:\/(?=$))?`. -/
def trailC (ci : Bool) : CapsM := optNoCapC (seqC (litC ci ['/']) (liftP patLookEnd))

/-- The matcher fragment built for one capture token — the token branch of
`tokensToRegExp`: repeat wraps the base in `(?:prefix base)*`; the capture
group wraps the repeated sequence; optional makes prefix+group (or the
group alone when the prefix is empty) jointly optional. -/
def tokenCapsM (ci : Bool) (t : Token) : Option CapsM := do
  let base ← interpPattern t.pattern
  let cap : PatM :=
    if t.rep then patSeqP base (patStarGreedy (patSeqP (patLit ci t.pfx) base)) else base
  if t.optional then
    if t.pfx ≠ [] then
      pure (optSkipC (seqC (litC ci t.pfx) (capC cap)) 1)
    else
      pure (optSkipC (capC cap) 1)
  else
    pure (seqC (litC ci t.pfx) (capC cap))

/-- Does the token list end with a string token ending in `/`?
(`endsWithSlash` of the source). -/
def endsWithSlashB (toks : List PTok) : Bool :=
  match toks.getLast? with
  | some (Sum.inl s) => s.getLast? = some '/'
  | _ => false

/-- The non-strict `route.slice(0, -2)` adjustment: the built regexp string
ends with the `escapeString`d final literal, whose last two characters are
`\/`; slicing them off is exactly dropping that literal's final `/`. -/
def trimLastLit : List PTok → List PTok
  | [] => []
  | [Sum.inl s] => [Sum.inl s.dropLast]
  | [t] => [t]
  | t :: rest => t :: trimLastLit rest

/-- The anchored exec function of a compiled route regexp:
first full match in priority order, with its capture list. -/
abbrev ExecFn := List Char → Option Caps

/-- The per-token matcher fragments, in order (the loop body of
`tokensToRegExp`): a literal fragment for each string token, the token
fragment otherwise.  `none` when a token carries an uninterpreted custom
sub-pattern. -/
def compileParts (ci : Bool) : List PTok → Option (List CapsM)
  | [] => some []
  | Sum.inl s :: rest => (compileParts ci rest).map fun ps => litC ci s :: ps
  | Sum.inr t :: rest =>
      match tokenCapsM ci t, compileParts ci rest with
      | some c, some ps => some (c :: ps)
      | _, _ => none

/-- `tokensToRegExp` with `end = true` (the only mode page.js uses): build
the concatenated matcher, apply the non-strict trailing-slash allowance,
and anchor at both ends.  `sensitive` off means the `i` flag is set
(`flags`). -/
def tokensToRegExpM (toks : List PTok) (strict sensitive : Bool) : Option ExecFn := do
  let ci := !sensitive
  let ews := endsWithSlashB toks
  let toks' := if !strict && ews then trimLastLit toks else toks
  let parts ← compileParts ci toks'
  let core := parts.foldr seqC epsC
  let whole := if !strict then seqC core (trailC ci) else core
  pure fun s => (((whole s).filter fun p => p.1 = []).head?).map Prod.snd

/-- `RegExp.prototype.test` on a compiled route regexp. -/
def testM (f : ExecFn) (s : List Char) : Bool := (f s).isSome

/-- The capture tokens of a parse, in order (`keys` of `stringToRegexp`). -/
def keysOf (toks : List PTok) : List Token :=
  toks.filterMap fun tk =>
    match tk with
    | Sum.inl _ => none
    | Sum.inr t => some t

/-- `stringToRegexp` (and `pathToRegexp` on a string input): parse, build
the regexp, collect the keys. -/
def stringToRegexpM (path : List Char) (strict sensitive : Bool) :
    Option (ExecFn × List Token) :=
  let toks := parseL path
  (tokensToRegExpM toks strict sensitive).map fun f => (f, keysOf toks)

/-!  ## `tokensToFunction` (the reverse path builder) -/

/-- A parameter value supplied to the path builder: a string or an array. -/
inductive PVal where
  | str (v : List Char)
  | arr (vs : List (List Char))
  deriving DecidableEq

/-- The data object passed to the builder. -/
abbrev PData := List (List Char × PVal)

/-- JS object-key coercion: numeric token names index the same property as
their decimal string. -/
def keyName : Sum (List Char) Nat → List Char
  | Sum.inl s => s
  | Sum.inr n => (Nat.repr n).toList

/-- Property lookup on the data object (`undefined` = `none`). -/
def lookupD (data : PData) (k : List Char) : Option PVal :=
  match data with
  | [] => none
  | e :: rest => if e.1 = k then some e.2 else lookupD rest k

/-- `^pattern$` test used for the per-token validation regexps
(`matches[i]`), which are built without flags, hence case-sensitively. -/
def patFullTest (p : PatM) (s : List Char) : Bool := (p s).any fun r => r = []

/-- The validation failures `tokensToFunction` raises (the source throws
`TypeError`s with descriptive messages; only the failure kind is kept). -/
inductive BuildErr where
  | missing
  | notRepeatable
  | emptyRepeat
  | patternFail
  deriving DecidableEq, Repr

/-- A pre-compiled token: literal, or capture with its validation test. -/
inductive Seg where
  | lit (s : List Char)
  | cap (te : List Char → Bool) (t : Token)

/-- Pre-compile the per-token validation regexps (the `matches` array). -/
def segsOf : List PTok → Option (List Seg)
  | [] => some []
  | Sum.inl s :: rest => (segsOf rest).map fun segs => Seg.lit s :: segs
  | Sum.inr t :: rest =>
      match interpPattern t.pattern, segsOf rest with
      | some p, some segs => some (Seg.cap (patFullTest p) t :: segs)
      | _, _ => none

/-- The repeat-value loop: encode and validate each element, joining with
prefix (first) / delimiter (rest). -/
def arrSegs (te : List Char → Bool) (t : Token) : List (List Char) → Bool →
    Except BuildErr (List Char)
  | [], _ => .ok []
  | v :: vs, isFirst =>
      let seg := encodeURIComponentL v
      if te seg then
        (arrSegs te t vs false).map fun p =>
          (if isFirst then t.pfx else t.delimiter) ++ seg ++ p
      else .error .patternFail

/-- The body of the function `tokensToFunction` returns: walk the tokens,
append literals, validate and append encoded values, throwing on a missing
required value, an array for a non-repeating token, an empty array for a
required repeating token, or a value whose encoding fails the token's
sub-pattern test. -/
def toPathGo : List Seg → PData → Except BuildErr (List Char)
  | [], _ => .ok []
  | Seg.lit s :: rest, data => (toPathGo rest data).map fun p => s ++ p
  | Seg.cap te t :: rest, data =>
      match lookupD data (keyName t.name) with
      | none => if t.optional then toPathGo rest data else .error .missing
      | some (PVal.arr vs) =>
          if !t.rep then .error .notRepeatable
          else if vs = [] then
            if t.optional then toPathGo rest data else .error .emptyRepeat
          else
            (arrSegs te t vs true).bind fun jp =>
              (toPathGo rest data).map fun p => jp ++ p
      | some (PVal.str v) =>
          let seg := encodeURIComponentL v
          if te seg then (toPathGo rest data).map fun p => t.pfx ++ seg ++ p
          else .error .patternFail

/-- `tokensToFunction`; `none` when some token's sub-pattern is
uninterpreted. -/
def tokensToFunctionM (toks : List PTok) : Option (PData → Except BuildErr (List Char)) :=
  (segsOf toks).map fun segs data => toPathGo segs data

/-- `compile` of path-to-regex.ts. -/
def compileM (str : List Char) : Option (PData → Except BuildErr (List Char)) :=
  tokensToFunctionM (parseL str)

/-!  ## `Route` (src/page.ts) -/

/-- A compiled route: the keys and the anchored exec function. -/
structure RouteM where
  keys : List Token
  exec : ExecFn

/-- The `Route` constructor: `'*'` becomes `'(.*)'`; `opts.strict =
opts.strict || page._strict` (page.js always passes `options = null`, so
the route inherits the controller's strict flag); `sensitive` is never
set, so the `i` flag is on. -/
def mkRoute (pageStrict : Bool) (path : List Char) : Option RouteM :=
  let p := if path = ['*'] then ['(', '.', '*', ')'] else path
  (stringToRegexpM p pageStrict false).map fun pr => { keys := pr.2, exec := pr.1 }

/-- The params object: JS string-keyed own properties in insertion order;
a `none` value is a property holding `undefined`. -/
abbrev Params := List (List Char × Option (List Char))

/-- `params.hasOwnProperty(k)`. -/
def hasKey (p : Params) (k : List Char) : Bool := p.any fun e => e.1 = k

/-- Property read: `none` = absent, `some none` = present but undefined. -/
def lookupP : Params → List Char → Option (Option (List Char))
  | [], _ => none
  | e :: rest, k => if e.1 = k then some e.2 else lookupP rest k

/-- Property write (in place for an existing key, else appended). -/
def setKey : Params → List Char → Option (List Char) → Params
  | [], k, v => [(k, v)]
  | e :: rest, k, v => if e.1 = k then (k, v) :: rest else e :: setKey rest k v

/-- `delete params[k]`. -/
def eraseKey (p : Params) (k : List Char) : Params := p.filter fun e => e.1 ≠ k

/-- The conditional write of the `Route.match` loop:
`if (val !== undefined || !(params.hasOwnProperty(key.name))) params[key.name] = val`. -/
def applyWrite (params : Params) (k : List Char) (val : Option (List Char)) : Params :=
  if val.isSome || !hasKey params k then setKey params k val else params

/-- The capture-writing loop of `Route.match`: each captured group is
passed through `_decodeURLEncodedURIComponent` (an undefined group stays
undefined via the `typeof` guard) and conditionally written; a decode
throw aborts the whole call (`none`). -/
def matchLoop (decodeFlag : Bool) : Params → List (Token × Option (List Char)) → Option Params
  | params, [] => some params
  | params, (key, cap) :: rest =>
      match cap with
      | none => matchLoop decodeFlag (applyWrite params (keyName key.name) none) rest
      | some cv =>
          match decodeURLEncodedURIComponent decodeFlag cv with
          | none => none
          | some dv => matchLoop decodeFlag (applyWrite params (keyName key.name) (some dv)) rest

/-- `Route.match`: strip the query string, `decodeURIComponent` the
pathname (a throw aborts: `none`), `delete params[0]`, run the regexp, and
on success write the captures.  (In the source the exec result is computed
before the `delete`; since `exec` neither reads nor writes `params`, the
two commute.) -/
def routeMatch (decodeFlag : Bool) (r : RouteM) (path : List Char) (params : Params) :
    Option (Bool × Params) :=
  let pathname :=
    match path.findIdx? fun c => c = '?' with
    | some i => path.take i
    | none => path
  match decodeURIComponentL pathname with
  | none => none
  | some dec =>
      let params1 := eraseKey params (keyName (Sum.inr 0))
      match r.exec dec with
      | none => some (false, params1)
      | some caps =>
          (matchLoop decodeFlag params1 (r.keys.zip caps)).map fun ps => (true, ps)

/-!  ## The dispatch engine (`Page.dispatch`)

Middleware (the closures stored in `page.callbacks` / `page.exits`) are
modelled as opaque synchronous state transformers over the engine-visible
state — the controller's `current` path and the context's `handled` flag —
paired with whether they invoke their `next` continuation.  Effects a
handler may have beyond this view (nested dispatches, history writes) are
outside the model; no claim below depends on them. -/

/-- The engine-visible state a middleware can read and mutate. -/
structure MwView where
  current : List Char
  handled : Option Bool
  deriving DecidableEq, Repr

/-- A middleware: new view, and whether `next` was invoked. -/
abbrev Mw := MwView → MwView × Bool

/-- Instrumentation: which middleware the engine invoked, with the value of
the source's `i` / `j` counter at the time. -/
inductive Tag where
  | exitT (j : Nat)
  | enterT (i : Nat)
  deriving DecidableEq, Repr

/-- Engine state: the view, the invocation log, and whether the enter list
was exhausted (the point where the source calls `unhandled`). -/
structure EngineSt where
  view : MwView
  log : List Tag
  unhandledReached : Bool
  deriving DecidableEq, Repr

/-- `nextEnter` of `Page.dispatch`: fetch the next enter middleware; before
invoking anything compare `ctx.path` with `page.current` — on a mismatch
set `ctx.handled = false` and return; on an exhausted list fall through to
`unhandled`; otherwise invoke the middleware, continuing only if it calls
`next`. -/
def nextEnter (ctxPath : List Char) : List Mw → Nat → EngineSt → EngineSt
  | fns, i, s =>
    if ctxPath ≠ s.view.current then
      { s with view := { s.view with handled := some false } }
    else
      match fns with
      | [] => { s with unhandledReached := true }
      | fn :: rest =>
          let s1 : EngineSt := { s with log := s.log ++ [Tag.enterT i] }
          let r := fn s1.view
          let s2 : EngineSt := { s1 with view := r.1 }
          if r.2 then nextEnter ctxPath rest (i + 1) s2 else s2

/-- `nextExit` of `Page.dispatch`: run the exit middleware in order (no
path guard); when the list is exhausted fall through to `nextEnter`; a
middleware that does not call `next` halts the whole dispatch. -/
def nextExit (ctxPath : List Char) (enterFns : List Mw) : List Mw → Nat → EngineSt → EngineSt
  | [], _, s => nextEnter ctxPath enterFns 0 s
  | fn :: rest, j, s =>
      let s1 : EngineSt := { s with log := s.log ++ [Tag.exitT j] }
      let r := fn s1.view
      let s2 : EngineSt := { s1 with view := r.1 }
      if r.2 then nextExit ctxPath enterFns rest (j + 1) s2 else s2

/-- `Page.dispatch(ctx, prev)`: start with the exit phase when a previous
context exists, else go straight to the enter phase. -/
def dispatchE (ctxPath : List Char) (exits enters : List Mw) (hasPrev : Bool)
    (s : EngineSt) : EngineSt :=
  if hasPrev then nextExit ctxPath enters exits 0 s else nextEnter ctxPath enters 0 s

/-!  ## `Context` and the navigation controller -/

/-- A JS state object: string-keyed string properties in insertion order
(only the `path` property is ever written by the core). -/
abbrev StateObj := List (List Char × List Char)

/-- Property write on a state object. -/
def setStateKey : StateObj → List Char → List Char → StateObj
  | [], k, v => [(k, v)]
  | e :: rest, k, v => if e.1 = k then (k, v) :: rest else e :: setStateKey rest k v

/-- The window-location fields the core reads. -/
structure LocSt where
  protocol : List Char
  pathname : List Char
  search : List Char
  hash : List Char
  deriving DecidableEq, Repr

/-- Controller configuration plus the static window state it reads. -/
structure PageCfg where
  decodeURLComponents : Bool
  base : List Char
  hashbang : Bool
  strict : Bool
  loc : LocSt
  documentTitle : List Char
  deriving DecidableEq, Repr

/-- `Page._getBase`. -/
def getBaseM (cfg : PageCfg) : List Char :=
  if cfg.base ≠ [] then cfg.base
  else if cfg.hashbang ∧ cfg.loc.protocol = "file:".toList then cfg.loc.pathname
  else cfg.base

/-- JS `String.prototype.replace` with a plain-string pattern: replace the
first occurrence only. -/
def replaceFirst : List Char → List Char → List Char → List Char
  | s, target, repl =>
      if target.isPrefixOf s then repl ++ s.drop target.length
      else
        match s with
        | [] => []
        | c :: rest => c :: replaceFirst rest target repl

/-- A navigation context (`Context` of src/page.ts).  `handled` is
tri-state: `none` = never assigned, `some b` = assigned `b`. -/
structure Ctx where
  init : Option Bool
  handled : Option Bool
  canonicalPath : List Char
  path : List Char
  title : List Char
  state : StateObj
  querystring : List Char
  pathname : List Char
  params : Params
  hash : List Char
  deriving DecidableEq, Repr

/-- The fallible decoding steps of the `Context` constructor, given the
already base-prefixed canonical path: the base / `#!` stripping (each
defaulting to `/`), the decoded querystring and pathname split on the
first `?`, and (outside hashbang mode) the fragment split on `#`.
Returns `(path, pathname, querystring, hash)`; `none` models a `URIError`
escaping from one of the decode calls. -/
def ctxParts (cfg : PageCfg) (path1 : List Char) :
    Option (List Char × List Char × List Char × List Char) := do
  let pageBase := getBaseM cfg
  let i := path1.findIdx? fun c => c = '?'
  let path2 := if pageBase.isPrefixOf path1 then path1.drop pageBase.length else path1
  let path2 := if path2 = [] then ['/'] else path2
  let path3 :=
    if cfg.hashbang then
      (fun h => if h = [] then ['/'] else h) (replaceFirst path2 "#!".toList [])
    else path2
  let qs ←
    match i with
    | some ix => decodeURLEncodedURIComponent cfg.decodeURLComponents (path1.drop (ix + 1))
    | none => some []
  let pn ← decodeURLEncodedURIComponent cfg.decodeURLComponents
    (match i with | some ix => path1.take ix | none => path1)
  if ¬ cfg.hashbang ∧ '#' ∈ path3 then
    let parts0 := path3.takeWhile fun c => c ≠ '#'
    let partsRest := path3.drop (parts0.length + 1)
    let parts1 := partsRest.takeWhile fun c => c ≠ '#'
    let hs ← decodeURLEncodedURIComponent cfg.decodeURLComponents parts1
    pure (parts0, parts0, qs.takeWhile fun c => c ≠ '#', hs)
  else
    pure (path3, pn, qs, [])

/-- The `Context` constructor: base-prefixing of absolute paths,
`state.path = path`, and the decoded fields from `ctxParts`.  The
`handled` and `init` fields start unassigned. -/
def mkContext (cfg : PageCfg) (path0 : List Char) (state0 : Option StateObj) : Option Ctx :=
  let pageBase := getBaseM cfg
  let path1 :=
    if path0.head? = some '/' ∧ ¬ pageBase.isPrefixOf path0 then
      pageBase ++ (if cfg.hashbang then "#!".toList else []) ++ path0
    else path0
  let state1 := setStateKey (state0.getD []) "path".toList path1
  (ctxParts cfg path1).map fun f =>
    { init := none, handled := none, canonicalPath := path1, path := f.1,
      title := cfg.documentTitle, state := state1, querystring := f.2.2.1,
      pathname := f.2.1, params := [], hash := f.2.2.2 }

/-- Controller state (`Page`).  The event-wiring fields are outside the
core model. -/
structure PageSt where
  cfg : PageCfg
  callbacks : List Mw
  exits : List Mw
  current : List Char
  len : Int
  running : Bool
  prevContext : Option Ctx

/-- The outbound calls the core issues to its History/location
collaborator, in order of issue. -/
inductive Effect where
  | pushHistory (state : StateObj) (title url : List Char)
  | replaceHistory (state : StateObj) (title url : List Char)
  | historyBack
  | deferShow (path : List Char) (state : Option StateObj)
  | locationAssign (url : List Char)
  deriving DecidableEq, Repr

/-- The URL form persisted by `pushState` / `save`: `#!`-prefixed logical
path in hashbang mode (unless at root), else the canonical path. -/
def persistUrl (cfg : PageCfg) (ctx : Ctx) : List Char :=
  if cfg.hashbang ∧ ctx.path ≠ ['/'] then "#!".toList ++ ctx.path else ctx.canonicalPath

/-- `Context.pushState`: increment `page.len` and push a history entry. -/
def pushStateM (st : PageSt) (ctx : Ctx) : PageSt × Effect :=
  ({ st with len := st.len + 1 }, .pushHistory ctx.state ctx.title (persistUrl st.cfg ctx))

/-- `Page.stop` (minus listener unbinding): a no-op unless running. -/
def stopM (st : PageSt) : PageSt :=
  if st.running then { st with current := [], len := 0, running := false } else st

/-- `unhandled(ctx)`: a no-op when the context is handled or the browser
address already equals the canonical path; otherwise stop the controller
and hand off to a full page load. -/
def unhandledM (st : PageSt) (ctx : Ctx) : PageSt × Ctx × List Effect :=
  if ctx.handled = some true then (st, ctx, [])
  else
    let current :=
      if st.cfg.hashbang then getBaseM st.cfg ++ replaceFirst st.cfg.loc.hash "#!".toList []
      else st.cfg.loc.pathname ++ st.cfg.loc.search
    if current = ctx.canonicalPath then (st, ctx, [])
    else (stopM st, { ctx with handled := some false }, [.locationAssign ctx.canonicalPath])

/-- `Page.dispatch` wired to the controller state: run the engine over the
view `(page.current, ctx.handled)` and apply `unhandled` if the enter list
was exhausted. -/
def dispatchFullM (st : PageSt) (ctx : Ctx) (hasPrev : Bool) : PageSt × Ctx × List Effect :=
  let es : EngineSt :=
    { view := { current := st.current, handled := ctx.handled },
      log := [], unhandledReached := false }
  let es1 := dispatchE ctx.path st.exits st.callbacks hasPrev es
  let st1 := { st with current := es1.view.current }
  let ctx1 := { ctx with handled := es1.view.handled }
  if es1.unhandledReached then unhandledM st1 ctx1 else (st1, ctx1, [])

/-- `Page.show(path, state, dispatch, push)`: build the context, remember
it as `prevContext`, set `current`, dispatch unless `dispatch === false`,
then push a history entry unless `ctx.handled === false` or
`push === false`. -/
def showM (st : PageSt) (path : List Char) (state0 : Option StateObj)
    (dispatch push : Option Bool) : Option (PageSt × Ctx × List Effect) := do
  let ctx ← mkContext st.cfg path state0
  let hasPrev := st.prevContext.isSome
  let st1 := { st with prevContext := some ctx, current := ctx.path }
  let r := if dispatch ≠ some false then dispatchFullM st1 ctx hasPrev else (st1, ctx, [])
  if r.2.1.handled ≠ some false ∧ push ≠ some false then
    let pr := pushStateM r.1 r.2.1
    pure (pr.1, r.2.1, r.2.2 ++ [pr.2])
  else
    pure r

/-- `Page.replace(path, state, init, dispatch)`: like `show` but the
history entry is replaced (`ctx.save()`) before dispatching, and nothing
is pushed. -/
def replaceM (st : PageSt) (path : List Char) (state0 : Option StateObj)
    (init dispatch : Option Bool) : Option (PageSt × Ctx × List Effect) := do
  let ctx0 ← mkContext st.cfg path state0
  let ctx := { ctx0 with init := init }
  let hasPrev := st.prevContext.isSome
  let st1 := { st with prevContext := some ctx, current := ctx.path }
  let saveEff := Effect.replaceHistory ctx.state ctx.title (persistUrl st.cfg ctx)
  let r := if dispatch ≠ some false then dispatchFullM st1 ctx hasPrev else (st1, ctx, [])
  pure (r.1, r.2.1, saveEff :: r.2.2)

/-- `Page.back(path, state)`: with a positive `len`, issue a real history
back-navigation and decrement `len`; otherwise schedule (zero-delay) a
`show` of the fallback path when one was supplied and truthy, else of the
base path. -/
def backM (st : PageSt) (path : Option (List Char)) (state0 : Option StateObj) :
    PageSt × List Effect :=
  if st.len > 0 then ({ st with len := st.len - 1 }, [.historyBack])
  else
    match path with
    | some p =>
        if p ≠ [] then (st, [.deferShow p state0])
        else (st, [.deferShow (getBaseM st.cfg) state0])
    | none => (st, [.deferShow (getBaseM st.cfg) state0])

/-!  ## Auxiliary notions used by the theorems -/

/-- A handler that synchronously triggers a `replace`/`show` to `target`:
its net effect on the engine-visible view is `current := target` (both
operations assign `this.current = ctx.path` synchronously before their own
dispatch), after which it returns and the chain calls `next`. -/
def redirectMw (target : List Char) : Mw := fun v => ({ v with current := target }, true)

/-- Is an `Except` value an error (a modelled throw)? -/
def isErr {ε α : Type} : Except ε α → Bool
  | .error _ => true
  | .ok _ => false

/-- The conditions under which processing one pre-compiled token must raise
a validation failure — the four throw sites of `tokensToFunction`: missing
required value, array value for a non-repeating token, empty array for a
required repeating token, and an encoded value failing the token's
sub-pattern test. -/
def segThrows (data : PData) : Seg → Prop
  | Seg.lit _ => False
  | Seg.cap te t =>
      match lookupD data (keyName t.name) with
      | none => ¬ t.optional
      | some (PVal.arr vs) =>
          t.rep = false ∨ (vs = [] ∧ ¬ t.optional) ∨ ∃ v ∈ vs, te (encodeURIComponentL v) = false
      | some (PVal.str v) => te (encodeURIComponentL v) = false

/-- Stepping-stone instance: the nested option/pair equalities appearing in
the concrete route-matching statements exceed the default instance-search
size when synthesised in one step. -/
instance : DecidableEq (Bool × Params) := instDecidableEqProd

/-- See above. -/
instance : DecidableEq (Option (Bool × Params)) := Option.instDecidableEq

/-- See above. -/
instance : DecidableEq (Option (Option (Bool × Params))) := Option.instDecidableEq

/-- See above. -/
instance : DecidableEq (Option Caps) := Option.instDecidableEq

/-- See above. -/
instance : DecidableEq (Option (Option Caps)) := Option.instDecidableEq

/-- Characters that can never start a `PATH_REGEXP` match: not an escape,
not a capture or group opener, not the bare wildcard.  A pattern made of
such characters parses as a single literal token. -/
def plainChar (c : Char) : Prop := c ≠ '\\' ∧ c ≠ ':' ∧ c ≠ '(' ∧ c ≠ '*'

/-- Plainness of a character is decidable. -/
instance (c : Char) : Decidable (plainChar c) :=
  inferInstanceAs (Decidable (c ≠ '\\' ∧ c ≠ ':' ∧ c ≠ '(' ∧ c ≠ '*'))

/-- The token `parse` produces for a trailing `/:x` in a pattern. -/
def xTok : Token :=
  { name := Sum.inl ['x'], pfx := ['/'], delimiter := ['/'], optional := false,
    rep := false, pattern := "[^\\/]+?".toList }

/-- The matcher fragment `tokensToRegExp` builds for `xTok`:
`\/([^\/]+?)`. -/
def xTokM : CapsM := seqC (litC true ['/']) (capC (patPlusLazy (patNotIn ['/'])))

/-- All proper suffixes of `s` obtained by consuming 1, 2, … characters —
the remainders the lazy default pattern `[^X]+?` offers, in priority
order, on a subject free of the excluded character. -/
def dropsFrom (s : List Char) : List (List Char) :=
  (List.range s.length).map fun k => s.drop (k + 1)

/-- Equality of path-builder results is decidable (`Except` ships no
such instance). -/
instance : DecidableEq (Except BuildErr (List Char)) := fun a b =>
  match a, b with
  | .error e1, .error e2 =>
      if h : e1 = e2 then .isTrue (by rw [h])
      else .isFalse (by intro hc; cases hc; exact h rfl)
  | .ok v1, .ok v2 =>
      if h : v1 = v2 then .isTrue (by rw [h])
      else .isFalse (by intro hc; cases hc; exact h rfl)
  | .error _, .ok _ => .isFalse (by intro hc; cases hc)
  | .ok _, .error _ => .isFalse (by intro hc; cases hc)

/-- Equality of built paths under Option, needed to state concrete
builder outputs decidably. -/
instance : DecidableEq (Option (Except BuildErr (List Char))) := Option.instDecidableEq

/-- A concrete window location for the witness instances. -/
def testLoc : LocSt :=
  { protocol := "http:".toList, pathname := "/cur".toList, search := [], hash := [] }

/-- A default-configured controller over `testLoc`. -/
def testCfg : PageCfg :=
  { decodeURLComponents := true, base := [], hashbang := false, strict := false,
    loc := testLoc, documentTitle := ['T'] }

/-- A started controller with empty middleware lists. -/
def testSt : PageSt :=
  { cfg := testCfg, callbacks := [], exits := [], current := [], len := 0,
    running := true, prevContext := none }

/-- The same controller with base path `/b`. -/
def testStBase : PageSt := { testSt with cfg := { testCfg with base := ['/', 'b'] } }

/-- An engine state whose controller is currently at `/b`. -/
def engineSt0 : EngineSt :=
  { view := { current := ['/', 'b'], handled := none }, log := [], unhandledReached := false }

/-- An engine state whose controller is currently at `/a`. -/
def engineStA : EngineSt :=
  { view := { current := ['/', 'a'], handled := none }, log := [], unhandledReached := false }

/-- A middleware that does nothing and calls `next`. -/
def mwPass : Mw := fun v => (v, true)

/-!  ## Theorems -/

/-- C2: the decoding step used by dispatch and by `Route.match` does throw
on malformed percent-encoding instead of falling back to the raw value:
`_decodeURLEncodedURIComponent` on the lone-`%` string throws (`none`),
and `Route.match` of the route `/:x` against the path `/%` aborts with
that exception rather than completing. -/
theorem decode_throws_on_malformed :
    decodeURLEncodedURIComponent true ['%'] = none ∧
    ((mkRoute false "/:x".toList).map fun r => routeMatch true r "/%".toList []) =
      some none := by
  decide

/-- C8 counterexample: with `len = 0` and the supplied fallback path `""`,
`back` defers to showing the controller's base path `/b`, not the supplied
fallback — the fallback is consulted for JS truthiness, so an empty string
behaves like an absent argument. -/
theorem back_empty_fallback_cex :
    backM testStBase (some []) none = (testStBase, [Effect.deferShow ['/', 'b'] none]) ∧
    Effect.deferShow ['/', 'b'] none ≠ Effect.deferShow [] none := by
  refine ⟨rfl, by decide⟩

/-- C8 (amended): with `len > 0`, `back` decrements `len` by exactly one
and issues a real history back-navigation, never a fallback `show`; with
`len ≤ 0` it defers (zero-delay) to showing the supplied fallback path
when that path is truthy (nonempty), and the controller's base path when
the fallback is absent or the empty string. -/
theorem back_len_policy (st : PageSt) (path : Option (List Char)) (state0 : Option StateObj) :
    (st.len > 0 →
      backM st path state0 = ({ st with len := st.len - 1 }, [Effect.historyBack])) ∧
    (st.len ≤ 0 →
      backM st path state0 =
        (st, [Effect.deferShow
          (match path with
           | some p => if p ≠ [] then p else getBaseM st.cfg
           | none => getBaseM st.cfg) state0])) := by
  constructor
  · intro h
    simp [backM, h]
  · intro h
    have h' : ¬ st.len > 0 := by omega
    cases path with
    | none => simp [backM, h']
    | some p =>
        by_cases hp : p = [] <;> simp [backM, h', hp]

/-- C8 witness: the amended theorem applied at `len = 1` (decrement and
real back-navigation) and at `len = 0` with fallback `/fb` (deferred show
of the fallback). -/
theorem back_len_policy_inst :
    backM { testSt with len := 1 } (some "/fb".toList) none =
      ({ testSt with len := 0 }, [Effect.historyBack]) ∧
    backM testSt (some "/fb".toList) none =
      (testSt, [Effect.deferShow "/fb".toList none]) := by
  constructor
  · have h := (back_len_policy { testSt with len := 1 } (some "/fb".toList) none).1
      (by norm_num)
    simpa using h
  · have h := (back_len_policy testSt (some "/fb".toList) none).2 (by norm_num [testSt])
    simpa using h

/-- Every context produced by the constructor has its `handled` (and
`init`) field unassigned. -/
theorem mkContext_handled_none (cfg : PageCfg) (p : List Char) (s0 : Option StateObj)
    (ctx : Ctx) (h : mkContext cfg p s0 = some ctx) : ctx.handled = none := by
  unfold mkContext at h
  obtain ⟨f, -, hb⟩ := Option.map_eq_some'.mp h
  rw [← hb]

/-- C9: when `show` is called with `dispatch = false` (and push not
suppressed), the returned context's `handled` flag is still unset — not
`false` — so `show` nevertheless pushes a new history entry and increments
the controller's `len` counter by exactly one even though no handler
ran. -/
theorem show_no_dispatch_pushes (st : PageSt) (path : List Char) (state0 : Option StateObj)
    (push : Option Bool) (hpush : push ≠ some false)
    (ctx : Ctx) (hctx : mkContext st.cfg path state0 = some ctx) :
    ctx.handled = none ∧
    showM st path state0 (some false) push =
      some ({ st with prevContext := some ctx, current := ctx.path, len := st.len + 1 },
            ctx,
            [Effect.pushHistory ctx.state ctx.title (persistUrl st.cfg ctx)]) := by
  have hh : ctx.handled = none := mkContext_handled_none st.cfg path state0 ctx hctx
  refine ⟨hh, ?_⟩
  unfold showM
  rw [hctx]
  have hcond : ctx.handled ≠ some false := by rw [hh]; simp
  simp [pushStateM, hcond, hpush]

/-- C9 witness: the theorem applied to the started controller and the path
`/w`: the context is unhandled, `len` goes from 0 to 1, and exactly one
history push is issued. -/
theorem show_no_dispatch_pushes_inst :
    ∃ ctx : Ctx, mkContext testSt.cfg "/w".toList none = some ctx ∧
      ctx.handled = none ∧
      showM testSt "/w".toList none (some false) none =
        some ({ testSt with prevContext := some ctx, current := ctx.path, len := 1 },
              ctx,
              [Effect.pushHistory ctx.state ctx.title (persistUrl testSt.cfg ctx)]) := by
  have hctx : mkContext testSt.cfg "/w".toList none =
      some { init := none, handled := none, canonicalPath := "/w".toList,
             path := "/w".toList, title := ['T'],
             state := [("path".toList, "/w".toList)], querystring := [],
             pathname := "/w".toList, params := [], hash := [] } := by decide
  refine ⟨_, hctx, ?_⟩
  have h := show_no_dispatch_pushes testSt "/w".toList none none (by simp) _ hctx
  exact ⟨h.1, by simpa using h.2⟩

/-- The enter-phase path guard: whenever the context's path differs from
the controller's current path, the engine sets `handled := false` and
returns without touching anything else — in particular without invoking
any further middleware or `unhandled`. -/
theorem nextEnter_halt_of_ne (p : List Char) (fns : List Mw) (i : Nat) (s : EngineSt)
    (h : p ≠ s.view.current) :
    nextEnter p fns i s = { s with view := { s.view with handled := some false } } := by
  unfold nextEnter
  rw [if_pos h]

/-- One step of the enter phase on an exhausted list with the guard
passing: control falls through to `unhandled`. -/
theorem nextEnter_nil (p : List Char) (i : Nat) (s : EngineSt) (hg : ¬ p ≠ s.view.current) :
    nextEnter p [] i s = { s with unhandledReached := true } := by
  conv_lhs => unfold nextEnter
  rw [if_neg hg]

/-- One step of the enter phase with the guard passing: log the invocation,
run the middleware, and continue exactly when it calls `next`. -/
theorem nextEnter_cons (p : List Char) (f : Mw) (rest : List Mw) (i : Nat) (s : EngineSt)
    (hg : ¬ p ≠ s.view.current) :
    nextEnter p (f :: rest) i s =
      (if (f { s with log := s.log ++ [Tag.enterT i] }.view).2 then
        nextEnter p rest (i + 1)
          { s with log := s.log ++ [Tag.enterT i],
                   view := (f { s with log := s.log ++ [Tag.enterT i] }.view).1 }
       else
        { s with log := s.log ++ [Tag.enterT i],
                 view := (f { s with log := s.log ++ [Tag.enterT i] }.view).1 }) := by
  conv_lhs => unfold nextEnter
  rw [if_neg hg]

/-- One step of the exit phase: log the invocation, run the middleware,
and continue exactly when it calls `next`. -/
theorem nextExit_cons (p : List Char) (enters : List Mw) (f : Mw) (rest : List Mw)
    (j : Nat) (s : EngineSt) :
    nextExit p enters (f :: rest) j s =
      (if (f { s with log := s.log ++ [Tag.exitT j] }.view).2 then
        nextExit p enters rest (j + 1)
          { s with log := s.log ++ [Tag.exitT j],
                   view := (f { s with log := s.log ++ [Tag.exitT j] }.view).1 }
       else
        { s with log := s.log ++ [Tag.exitT j],
                 view := (f { s with log := s.log ++ [Tag.exitT j] }.view).1 }) := by
  conv_lhs => unfold nextExit

/-- Running the enter phase on a list containing a redirecting middleware:
every middleware the engine invokes sits at or before the redirecting
one — the guard halts the chain at the next step. -/
theorem nextEnter_redirect_log (p target : List Char) (post : List Mw) :
    ∀ (pre : List Mw) (i : Nat) (s : EngineSt), target ≠ p →
      ∃ ts : List Tag,
        (nextEnter p (pre ++ redirectMw target :: post) i s).log = s.log ++ ts ∧
        ∀ t ∈ ts, ∃ k, t = Tag.enterT k ∧ k < i + pre.length + 1 := by
  intro pre
  induction pre with
  | nil =>
      intro i s htg
      by_cases hg : p ≠ s.view.current
      · exact ⟨[], by simp [nextEnter_halt_of_ne _ _ _ _ hg], by simp⟩
      · rw [List.nil_append, nextEnter_cons p _ post i s hg]
        have hr : (redirectMw target { s with log := s.log ++ [Tag.enterT i] }.view).2 = true := rfl
        rw [if_pos hr, nextEnter_halt_of_ne _ _ _ _ (Ne.symm htg)]
        exact ⟨[Tag.enterT i], by simp, by simp⟩
  | cons f pre ih =>
      intro i s htg
      by_cases hg : p ≠ s.view.current
      · exact ⟨[], by simp [nextEnter_halt_of_ne _ _ _ _ hg], by simp⟩
      · rw [List.cons_append, nextEnter_cons p f _ i s hg]
        by_cases hr : (f { s with log := s.log ++ [Tag.enterT i] }.view).2
        · rw [if_pos hr]
          obtain ⟨ts, hlog, hbd⟩ := ih (i + 1)
            { s with log := s.log ++ [Tag.enterT i],
                     view := (f { s with log := s.log ++ [Tag.enterT i] }.view).1 } htg
          refine ⟨Tag.enterT i :: ts, ?_, ?_⟩
          · simpa [List.append_assoc] using hlog
          · intro t ht
            rcases List.mem_cons.mp ht with rfl | ht
            · exact ⟨i, rfl, by omega⟩
            · obtain ⟨k, hk, hklt⟩ := hbd t ht
              exact ⟨k, hk, by simp at hklt ⊢; omega⟩
        · rw [if_neg hr]
          refine ⟨[Tag.enterT i], by simp, ?_⟩
          intro t ht
          simp at ht
          subst ht
          exact ⟨i, rfl, by omega⟩

/-- C1: during the enter phase the engine compares `ctx.path` with
`page.current` before invoking each middleware: whenever they differ the
context is marked `handled = false` and the phase halts at once, for every
middleware list and engine state; consequently a handler that
synchronously redirects to a different path (updating `current`) prevents
every later-registered middleware of the original dispatch from running. -/
theorem enter_guard_halts_stale_chain :
    (∀ (p : List Char) (fns : List Mw) (i : Nat) (s : EngineSt),
        p ≠ s.view.current →
        nextEnter p fns i s = { s with view := { s.view with handled := some false } }) ∧
    (∀ (p target : List Char) (pre post : List Mw) (i : Nat) (s : EngineSt),
        target ≠ p →
        ∃ ts : List Tag,
          (nextEnter p (pre ++ redirectMw target :: post) i s).log = s.log ++ ts ∧
          ∀ t ∈ ts, ∃ k, t = Tag.enterT k ∧ k < i + pre.length + 1) :=
  ⟨nextEnter_halt_of_ne,
   fun p target pre post i s h => nextEnter_redirect_log p target post pre i s h⟩

/-- C1 witness: the guard theorem at the concrete state currently at `/b`
with context path `/a`, and the redirect scenario with a single
redirecting handler to `/c` from `/a`. -/
theorem enter_guard_halts_stale_chain_inst :
    (nextEnter ['/', 'a'] [mwPass] 0 engineSt0 =
      { engineSt0 with view := { engineSt0.view with handled := some false } }) ∧
    ∃ ts : List Tag,
      (nextEnter ['/', 'a'] ([] ++ redirectMw ['/', 'c'] :: [mwPass]) 0 engineStA).log =
        engineStA.log ++ ts ∧
      ∀ t ∈ ts, ∃ k, t = Tag.enterT k ∧ k < 0 + List.length ([] : List Mw) + 1 :=
  ⟨enter_guard_halts_stale_chain.1 ['/', 'a'] [mwPass] 0 engineSt0 (by decide),
   enter_guard_halts_stale_chain.2 ['/', 'a'] ['/', 'c'] [] [mwPass] 0 engineStA (by decide)⟩

/-- The enter phase only ever appends enter-invocation entries to the
log. -/
theorem nextEnter_log_append (p : List Char) :
    ∀ (fns : List Mw) (i : Nat) (s : EngineSt),
      ∃ ts : List Tag, (nextEnter p fns i s).log = s.log ++ ts ∧
        ∀ t ∈ ts, ∃ k, t = Tag.enterT k := by
  intro fns
  induction fns with
  | nil =>
      intro i s
      by_cases hg : p ≠ s.view.current
      · exact ⟨[], by simp [nextEnter_halt_of_ne _ _ _ _ hg], by simp⟩
      · exact ⟨[], by simp [nextEnter_nil p i s hg], by simp⟩
  | cons f rest ih =>
      intro i s
      by_cases hg : p ≠ s.view.current
      · exact ⟨[], by simp [nextEnter_halt_of_ne _ _ _ _ hg], by simp⟩
      · rw [nextEnter_cons p f rest i s hg]
        by_cases hr : (f { s with log := s.log ++ [Tag.enterT i] }.view).2
        · rw [if_pos hr]
          obtain ⟨ts, hlog, hts⟩ := ih (i + 1)
            { s with log := s.log ++ [Tag.enterT i],
                     view := (f { s with log := s.log ++ [Tag.enterT i] }.view).1 }
          refine ⟨Tag.enterT i :: ts, by simpa [List.append_assoc] using hlog, ?_⟩
          intro t ht
          rcases List.mem_cons.mp ht with rfl | ht
          · exact ⟨i, rfl⟩
          · exact hts t ht
        · rw [if_neg hr]
          refine ⟨[Tag.enterT i], by simp, ?_⟩
          intro t ht
          simp at ht
          subst ht
          exact ⟨i, rfl⟩

/-- The exit phase invokes exits `j, j+1, …` in order, then (only when the
list is exhausted cooperatively) hands over to the enter phase, which
appends only enter entries. -/
theorem nextExit_log (p : List Char) (enters : List Mw) :
    ∀ (exits : List Mw) (j : Nat) (s : EngineSt),
      ∃ (n : Nat) (nts : List Tag),
        (nextExit p enters exits j s).log =
          s.log ++ (List.range' j n).map Tag.exitT ++ nts ∧
        n ≤ exits.length ∧ (∀ t ∈ nts, ∃ k, t = Tag.enterT k) ∧
        (nts ≠ [] → n = exits.length) := by
  intro exits
  induction exits with
  | nil =>
      intro j s
      obtain ⟨ts, hlog, hts⟩ := nextEnter_log_append p enters 0 s
      exact ⟨0, ts, by simpa using hlog, by simp, hts, by simp⟩
  | cons f rest ih =>
      intro j s
      rw [nextExit_cons p enters f rest j s]
      by_cases hr : (f { s with log := s.log ++ [Tag.exitT j] }.view).2
      · rw [if_pos hr]
        obtain ⟨n, nts, hlog, hn, hnts, hfull⟩ := ih (j + 1)
          { s with log := s.log ++ [Tag.exitT j],
                   view := (f { s with log := s.log ++ [Tag.exitT j] }.view).1 }
        refine ⟨n + 1, nts, ?_, by simpa using Nat.succ_le_succ hn, hnts, ?_⟩
        · rw [hlog]
          simp [List.range'_succ, List.append_assoc]
        · intro hne
          simp [hfull hne]
      · rw [if_neg hr]
        refine ⟨1, [], ?_, by simp, by simp, by simp⟩
        simp [List.range'_one]

/-- C6: with a previous context, the dispatch log is the exit invocations
`0…n-1` (a prefix of the exit list, walked in order) followed only by
enter invocations, and an enter middleware can only have run when the
whole exit list was exhausted; with no previous context the exit phase is
skipped entirely and only enter entries appear. -/
theorem exit_before_enter :
    (∀ (p : List Char) (exits enters : List Mw) (s : EngineSt),
        dispatchE p exits enters false s = nextEnter p enters 0 s ∧
        ∃ ts : List Tag, (nextEnter p enters 0 s).log = s.log ++ ts ∧
          ∀ t ∈ ts, ∃ k, t = Tag.enterT k) ∧
    (∀ (p : List Char) (exits enters : List Mw) (s : EngineSt),
        ∃ (n : Nat) (nts : List Tag),
          (dispatchE p exits enters true s).log =
            s.log ++ (List.range n).map Tag.exitT ++ nts ∧
          n ≤ exits.length ∧ (∀ t ∈ nts, ∃ k, t = Tag.enterT k) ∧
          (nts ≠ [] → n = exits.length)) := by
  constructor
  · intro p exits enters s
    exact ⟨by simp [dispatchE], nextEnter_log_append p enters 0 s⟩
  · intro p exits enters s
    obtain ⟨n, nts, hlog, hn, hnts, hfull⟩ := nextExit_log p enters exits 0 s
    refine ⟨n, nts, ?_, hn, hnts, hfull⟩
    simpa [dispatchE, List.range_eq_range'] using hlog

/-- C6 witness: the theorem applied with one pass-through exit and one
pass-through enter middleware at `/a`, with and without a previous
context. -/
theorem exit_before_enter_inst :
    (dispatchE ['/', 'a'] [mwPass] [mwPass] false engineStA =
        nextEnter ['/', 'a'] [mwPass] 0 engineStA ∧
      ∃ ts : List Tag, (nextEnter ['/', 'a'] [mwPass] 0 engineStA).log =
          engineStA.log ++ ts ∧ ∀ t ∈ ts, ∃ k, t = Tag.enterT k) ∧
    ∃ (n : Nat) (nts : List Tag),
      (dispatchE ['/', 'a'] [mwPass] [mwPass] true engineStA).log =
        engineStA.log ++ (List.range n).map Tag.exitT ++ nts ∧
      n ≤ [mwPass].length ∧ (∀ t ∈ nts, ∃ k, t = Tag.enterT k) ∧
      (nts ≠ [] → n = [mwPass].length) :=
  ⟨exit_before_enter.1 ['/', 'a'] [mwPass] [mwPass] engineStA,
   exit_before_enter.2 ['/', 'a'] [mwPass] [mwPass] engineStA⟩

/-- A property is present exactly when its lookup succeeds. -/
theorem hasKey_eq_isSome (p : Params) (k : List Char) :
    hasKey p k = (lookupP p k).isSome := by
  induction p with
  | nil => rfl
  | cons e rest ih =>
      by_cases he : e.1 = k
      · simp [hasKey, lookupP, he]
      · simp [hasKey, lookupP, he, ← ih, hasKey]

/-- Reading back the key just written. -/
theorem lookupP_setKey_self (p : Params) (k : List Char) (v : Option (List Char)) :
    lookupP (setKey p k v) k = some v := by
  induction p with
  | nil => simp [setKey, lookupP]
  | cons e rest ih =>
      by_cases he : e.1 = k
      · simp [setKey, he, lookupP]
      · simp [setKey, he, lookupP, ih]

/-- Writing one key leaves every other key unchanged. -/
theorem lookupP_setKey_ne (p : Params) (k k' : List Char) (v : Option (List Char))
    (hne : k' ≠ k) :
    lookupP (setKey p k v) k' = lookupP p k' := by
  have h1 : ¬ k = k' := fun h => hne h.symm
  induction p with
  | nil => simp [setKey, lookupP, h1]
  | cons e rest ih =>
      by_cases he : e.1 = k
      · have h2 : ¬ e.1 = k' := by rw [he]; exact h1
        simp [setKey, he, lookupP, h1, h2]
      · by_cases he' : e.1 = k'
        · simp [setKey, he, lookupP, he', hne]
        · simp [setKey, he, lookupP, he', ih]

/-- The conditional write can only create or change the written key. -/
theorem hasKey_applyWrite (p : Params) (k k' : List Char) (v : Option (List Char))
    (h : hasKey (applyWrite p k v) k' = true) : k' = k ∨ hasKey p k' = true := by
  unfold applyWrite at h
  split at h
  · by_cases hk : k' = k
    · exact Or.inl hk
    · right
      rw [hasKey_eq_isSome] at h ⊢
      rwa [lookupP_setKey_ne _ _ _ _ hk] at h
  · exact Or.inr h

/-- A deleted key is absent. -/
theorem hasKey_eraseKey_self (p : Params) (k : List Char) :
    hasKey (eraseKey p k) k = false := by
  induction p with
  | nil => rfl
  | cons e rest ih =>
      by_cases he : e.1 = k
      · rw [eraseKey, List.filter_cons_of_neg (by simp [he])]
        exact ih
      · rw [eraseKey, List.filter_cons_of_pos (by simp [he]), hasKey, List.any_cons]
        rw [hasKey, eraseKey] at ih
        simp [he, ih]

/-- A key present after the capture-writing loop was present before it or
belongs to one of the processed keys. -/
theorem matchLoop_hasKey (df : Bool) :
    ∀ (kvs : List (Token × Option (List Char))) (p p1 : Params) (k' : List Char),
      matchLoop df p kvs = some p1 → hasKey p1 k' = true →
      hasKey p k' = true ∨ ∃ e ∈ kvs, keyName e.1.name = k' := by
  intro kvs
  induction kvs with
  | nil =>
      intro p p1 k' hm hk
      simp [matchLoop] at hm
      subst hm
      exact Or.inl hk
  | cons e rest ih =>
      intro p p1 k' hm hk
      rcases e with ⟨key, cap⟩
      cases cap with
      | none =>
          simp only [matchLoop] at hm
          rcases ih _ _ _ hm hk with h | h
          · rcases hasKey_applyWrite _ _ _ _ h with h' | h'
            · exact Or.inr ⟨(key, none), by simp, h'.symm⟩
            · exact Or.inl h'
          · obtain ⟨e', he', hke'⟩ := h
            exact Or.inr ⟨e', List.mem_cons_of_mem _ he', hke'⟩
      | some cv =>
          simp only [matchLoop] at hm
          cases hd : decodeURLEncodedURIComponent df cv with
          | none => rw [hd] at hm; cases hm
          | some dv =>
              rw [hd] at hm
              rcases ih _ _ _ hm hk with h | h
              · rcases hasKey_applyWrite _ _ _ _ h with h' | h'
                · exact Or.inr ⟨(key, some cv), by simp, h'.symm⟩
                · exact Or.inl h'
              · obtain ⟨e', he', hke'⟩ := h
                exact Or.inr ⟨e', List.mem_cons_of_mem _ he', hke'⟩

/-- C10: `Route.match` deletes the key `0` from `params` before the match
result is examined, so after every completed call — including one that
returns `false` — `params` has no own property `0` unless this route's own
keys wrote it; on a non-match the returned mapping is exactly the input
minus key `0`, all other keys untouched. -/
theorem match_deletes_key0 :
    (∀ (df : Bool) (r : RouteM) (path : List Char) (params p1 : Params),
        routeMatch df r path params = some (false, p1) →
        p1 = eraseKey params ['0']) ∧
    (∀ (df : Bool) (r : RouteM) (path : List Char) (params p1 : Params),
        routeMatch df r path params = some (true, p1) →
        (∀ t ∈ r.keys, keyName t.name ≠ ['0']) →
        hasKey p1 ['0'] = false) := by
  have hk0 : keyName (Sum.inr 0) = ['0'] := rfl
  constructor
  · intro df r path params p1 hm
    simp only [routeMatch] at hm
    split at hm
    · cases hm
    · split at hm
      · rw [hk0] at hm
        cases hm
        rfl
      · obtain ⟨ps, hps, heq⟩ := Option.map_eq_some'.mp hm
        simp at heq
  · intro df r path params p1 hm hkeys
    simp only [routeMatch] at hm
    split at hm
    · cases hm
    · split at hm
      · cases hm
      · obtain ⟨ps, hps, heq⟩ := Option.map_eq_some'.mp hm
        have hps1 : ps = p1 := by
          have := congrArg Prod.snd heq
          simpa using this
        subst hps1
        cases hres : hasKey ps ['0'] with
        | false => rfl
        | true =>
            rw [hk0] at hps
            rcases matchLoop_hasKey df _ _ _ _ hps hres with h | h
            · rw [hasKey_eraseKey_self] at h
              cases h
            · obtain ⟨e, he', hke⟩ := h
              have hmem := (List.of_mem_zip he').1
              exact absurd hke (hkeys e.1 hmem)

/-- C10 witness: a `/:x` route matched against `/zz` with `params` holding
a stale key `0` and a route `/nomatch` not matching `/other`: in both
cases the key `0` is gone. -/
theorem match_deletes_key0_inst :
    ((mkRoute false "/:x".toList).map fun r =>
        routeMatch true r "/zz".toList [(['0'], some "old".toList)]) =
      some (some (true, [("x".toList, some "zz".toList)])) ∧
    hasKey [("x".toList, some "zz".toList)] ['0'] = false ∧
    ((mkRoute false "/nomatch".toList).map fun r =>
        routeMatch true r "/other".toList [(['0'], some "old".toList), (['k'], some ['v'])]) =
      some (some (false, [(['k'], some ['v'])])) ∧
    [(['k'], some ['v'])] =
      eraseKey [(['0'], some "old".toList), (['k'], some ['v'])] ['0'] := by
  have h1 : ((mkRoute false "/:x".toList).map fun r =>
      routeMatch true r "/zz".toList [(['0'], some "old".toList)]) =
      some (some (true, [("x".toList, some "zz".toList)])) := by decide
  have h2 : ((mkRoute false "/nomatch".toList).map fun r =>
      routeMatch true r "/other".toList [(['0'], some "old".toList), (['k'], some ['v'])]) =
      some (some (false, [(['k'], some ['v'])])) := by decide
  refine ⟨h1, ?_, h2, ?_⟩
  · obtain ⟨r, hr, h1'⟩ := Option.map_eq_some'.mp h1
    have hkeys : r.keys = keysOf (parseL "/:x".toList) := by
      have hmr : mkRoute false "/:x".toList =
          (tokensToRegExpM (parseL "/:x".toList) false false).map
            fun f => { keys := keysOf (parseL "/:x".toList), exec := f } := rfl
      rw [hmr] at hr
      obtain ⟨f, -, hrec⟩ := Option.map_eq_some'.mp hr
      rw [← hrec]
    refine match_deletes_key0.2 true r "/zz".toList [(['0'], some "old".toList)] _ h1' ?_
    rw [hkeys]
    decide
  · obtain ⟨r, hr, h2'⟩ := Option.map_eq_some'.mp h2
    exact (match_deletes_key0.1 true r "/other".toList
      [(['0'], some "old".toList), (['k'], some ['v'])] _ h2').symm

/-- C7: the capture-writing rule of `Route.match`: a defined captured value
always overwrites the params entry under its key; an undefined captured
value never overwrites an existing entry (the outer route's value is
preserved); and an absent key is always written, even with an undefined
value.  End to end: matching `/ctx/:x?` against `/ctx` keeps a
pre-populated `x`, while matching it against `/ctx/new` overwrites it. -/
theorem params_write_policy :
    (∀ (p : Params) (k v : List Char),
        lookupP (applyWrite p k (some v)) k = some (some v)) ∧
    (∀ (p : Params) (k : List Char),
        hasKey p k = true → applyWrite p k none = p) ∧
    (∀ (p : Params) (k : List Char),
        hasKey p k = false → lookupP (applyWrite p k none) k = some none) ∧
    ((mkRoute false "/ctx/:x?".toList).map (fun r =>
        routeMatch true r "/ctx".toList [("x".toList, some "keep".toList)]) =
      some (some (true, [("x".toList, some "keep".toList)]))) ∧
    ((mkRoute false "/ctx/:x?".toList).map (fun r =>
        routeMatch true r "/ctx/new".toList [("x".toList, some "keep".toList)]) =
      some (some (true, [("x".toList, some "new".toList)]))) := by
  refine ⟨?_, ?_, ?_, by decide, by decide⟩
  · intro p k v
    simp [applyWrite, lookupP_setKey_self]
  · intro p k h
    simp [applyWrite, h]
  · intro p k h
    simp [applyWrite, h, lookupP_setKey_self]

/-- C7 witness: the write rules applied at a concrete params object with
one existing key. -/
theorem params_write_policy_inst :
    lookupP (applyWrite [(['a'], some ['1'])] ['a'] (some ['2'])) ['a'] = some (some ['2']) ∧
    applyWrite [(['a'], some ['1'])] ['a'] none = [(['a'], some ['1'])] ∧
    lookupP (applyWrite [(['a'], some ['1'])] ['z'] none) ['z'] = some none :=
  ⟨params_write_policy.1 [(['a'], some ['1'])] ['a'] ['2'],
   params_write_policy.2.1 [(['a'], some ['1'])] ['a'] (by decide),
   params_write_policy.2.2.1 [(['a'], some ['1'])] ['z'] (by decide)⟩

/-- Case-canonicalised comparison is reflexive. -/
theorem ciChar_refl (ci : Bool) (c : Char) : ciChar ci c c = true := by
  cases ci <;> simp [ciChar]

/-- A literal strips itself off the front of any extension of itself. -/
theorem stripCi_self_append (ci : Bool) (l r : List Char) :
    stripCi ci l (l ++ r) = some r := by
  induction l with
  | nil => rfl
  | cons c t ih => simp [stripCi, ciChar_refl, ih]

/-- Stripping a concatenated literal is stripping the pieces in turn. -/
theorem stripCi_append (ci : Bool) (a b s : List Char) :
    stripCi ci (a ++ b) s = (stripCi ci a s).bind (stripCi ci b) := by
  induction a generalizing s with
  | nil => rfl
  | cons c t ih =>
      cases s with
      | nil => simp [stripCi]
      | cons d s' =>
          by_cases h : ciChar ci c d = true
          · simp [stripCi, h, ih]
          · simp [stripCi, h]

/-- The matcher of a literal-only token sequence consumes exactly the
concatenated literal (case-canonicalised) and captures nothing. -/
theorem foldr_litC_eq (ci : Bool) (Ls : List (List Char)) (s : List Char) :
    (Ls.map (litC ci)).foldr seqC epsC s =
      (match stripCi ci Ls.flatten s with
       | some r => [(r, ([] : Caps))]
       | none => []) := by
  induction Ls generalizing s with
  | nil => rfl
  | cons a rest ih =>
      simp only [List.map_cons, List.foldr_cons, List.flatten_cons, stripCi_append]
      cases ha : stripCi ci a s with
      | none => simp [seqC, litC, patLit, ha]
      | some r => simp [seqC, litC, patLit, ha, ih]

/-- `tokensToRegExp` in strict mode on a literal-only token sequence. -/
theorem tokensToRegExpM_lit_strict (Ls : List (List Char)) :
    tokensToRegExpM (Ls.map Sum.inl) true false = some (fun s =>
      ((((Ls.map (litC true)).foldr seqC epsC s).filter fun p => p.1 = []).head?).map
        Prod.snd) := by
  have hmap : compileParts true (Ls.map Sum.inl) = some (Ls.map (litC true)) := by
    induction Ls with
    | nil => rfl
    | cons a rest ih => simp [compileParts, ih]
  simp [tokensToRegExpM, hmap]

/-- C3: the matcher compiled from `/a/b` with `strict:false` accepts
`/a/b/` (one optional trailing separator), while with `strict:true` it
rejects it; in general a strict-mode literal-only matcher accepts exactly
the (case-canonicalised) literal itself, so any trailing-slash mismatch
fails to match. -/
theorem strict_trailing_slash :
    ((tokensToRegExpM (parseL "/a/b".toList) false false).map fun f =>
        testM f "/a/b/".toList) = some true ∧
    ((tokensToRegExpM (parseL "/a/b".toList) true false).map fun f =>
        testM f "/a/b/".toList) = some false ∧
    (∀ (Ls : List (List Char)) (f : ExecFn),
        tokensToRegExpM (Ls.map Sum.inl) true false = some f →
        (∀ s, testM f s = true ↔ stripCi true Ls.flatten s = some []) ∧
        testM f (Ls.flatten ++ ['/']) = false) := by
  refine ⟨by decide, by decide, ?_⟩
  intro Ls f hf
  rw [tokensToRegExpM_lit_strict] at hf
  have hf' := Option.some.inj hf
  subst hf'
  have hiff : ∀ s, testM (fun s =>
      ((((Ls.map (litC true)).foldr seqC epsC s).filter fun p => p.1 = []).head?).map
        Prod.snd) s = true ↔ stripCi true Ls.flatten s = some [] := by
    intro s
    simp only [testM, foldr_litC_eq]
    cases hs : stripCi true Ls.flatten s with
    | none => simp
    | some r =>
        cases r with
        | nil => simp
        | cons c t => simp
  refine ⟨hiff, ?_⟩
  cases ht : testM _ (Ls.flatten ++ ['/']) with
  | false => rfl
  | true =>
      have := (hiff (Ls.flatten ++ ['/'])).mp ht
      rw [stripCi_self_append] at this
      cases this

/-- C3 witness: the strict literal matcher for `/a/b` accepts `/a/b` and
rejects `/a/b/`. -/
theorem strict_trailing_slash_inst :
    ∃ f, tokensToRegExpM (["/a/b".toList].map Sum.inl) true false = some f ∧
      testM f ("/a/b".toList ++ ['/']) = false ∧
      testM f "/a/b".toList = true := by
  refine ⟨_, tokensToRegExpM_lit_strict ["/a/b".toList], ?_, ?_⟩
  · have h := (strict_trailing_slash.2.2 ["/a/b".toList] _
      (tokensToRegExpM_lit_strict ["/a/b".toList])).2
    simpa using h
  · have h := (strict_trailing_slash.2.2 ["/a/b".toList] _
      (tokensToRegExpM_lit_strict ["/a/b".toList])).1 "/a/b".toList
    rw [h]
    decide

/-- Mapping over a build result does not change whether it is an error. -/
theorem isErr_exceptMap {ε α β : Type} (f : α → β) (e : Except ε α) :
    isErr (e.map f) = isErr e := by
  cases e <;> rfl

/-- The repeat-value loop fails whenever some element's encoding fails the
token's sub-pattern test. -/
theorem arrSegs_isErr (te : List Char → Bool) (t : Token) :
    ∀ (vs : List (List Char)) (b : Bool),
      (∃ v ∈ vs, te (encodeURIComponentL v) = false) →
      isErr (arrSegs te t vs b) = true := by
  intro vs
  induction vs with
  | nil =>
      rintro b ⟨v, hv, -⟩
      cases hv
  | cons v rest ih =>
      rintro b ⟨w, hw, hfail⟩
      rcases List.mem_cons.mp hw with rfl | hw'
      · by_cases hv : te (encodeURIComponentL w) = true
        · rw [hv] at hfail; cases hfail
        · simp [arrSegs, hv, isErr]
      · by_cases hv : te (encodeURIComponentL v) = true
        · simp [arrSegs, hv, isErr_exceptMap, ih false ⟨w, hw', hfail⟩]
        · simp [arrSegs, hv, isErr]

/-- The path builder fails whenever some token of the sequence is in one
of the four throwing situations, regardless of what surrounds it. -/
theorem toPathGo_isErr (data : PData) :
    ∀ (segs : List Seg) (seg : Seg), seg ∈ segs → segThrows data seg →
      isErr (toPathGo segs data) = true := by
  intro segs
  induction segs with
  | nil =>
      intro seg h
      cases h
  | cons s rest ih =>
      intro seg hmem hthrow
      rcases List.mem_cons.mp hmem with rfl | hmem'
      · cases seg with
        | lit l => exact absurd hthrow (by simp [segThrows])
        | cap te t =>
            simp only [segThrows] at hthrow
            cases hl : lookupD data (keyName t.name) with
            | none =>
                rw [hl] at hthrow
                simp [toPathGo, hl, hthrow, isErr]
            | some pv =>
                cases pv with
                | str v =>
                    rw [hl] at hthrow
                    simp [toPathGo, hl, hthrow, isErr]
                | arr vs =>
                    rw [hl] at hthrow
                    by_cases hrep : t.rep = true
                    · rcases hthrow with hrep' | ⟨hvs, hopt⟩ | hfail
                      · rw [hrep] at hrep'; cases hrep'
                      · subst hvs
                        simp [toPathGo, hl, hrep, hopt, isErr]
                      · obtain ⟨w, hw, hfl⟩ := hfail
                        have hne : vs ≠ [] := by rintro rfl; cases hw
                        have harr := arrSegs_isErr te t vs true ⟨w, hw, hfl⟩
                        cases ha : arrSegs te t vs true with
                        | error e => simp [toPathGo, hl, hrep, hne, ha, isErr, Except.bind]
                        | ok jp => rw [ha] at harr; simp [isErr] at harr
                    · have hrep' : t.rep = false := by
                        cases hb : t.rep
                        · rfl
                        · exact absurd hb hrep
                      simp [toPathGo, hl, hrep', isErr]
      · have htail := ih seg hmem' hthrow
        cases s with
        | lit l => simp [toPathGo, isErr_exceptMap, htail]
        | cap te t =>
            cases hl : lookupD data (keyName t.name) with
            | none =>
                by_cases hopt : t.optional = true
                · simp [toPathGo, hl, hopt, htail]
                · simp [toPathGo, hl, hopt, isErr]
            | some pv =>
                cases pv with
                | str v =>
                    by_cases hte : te (encodeURIComponentL v) = true
                    · simp [toPathGo, hl, hte, isErr_exceptMap, htail]
                    · simp [toPathGo, hl, hte, isErr]
                | arr vs =>
                    by_cases hrep : t.rep = true
                    · by_cases hvs : vs = []
                      · subst hvs
                        by_cases hopt : t.optional = true
                        · simp [toPathGo, hl, hrep, hopt, htail]
                        · simp [toPathGo, hl, hrep, hopt, isErr]
                      · cases ha : arrSegs te t vs true with
                        | error e => simp [toPathGo, hl, hrep, hvs, ha, isErr, Except.bind]
                        | ok jp => simp [toPathGo, hl, hrep, hvs, ha, isErr_exceptMap, htail, Except.bind]
                    · have hrep' : t.rep = false := by
                        cases hb : t.rep
                        · rfl
                        · exact absurd hb hrep
                      simp [toPathGo, hl, hrep', isErr]

/-- C5 counterexample: supplying a plain (non-array) value for the repeat
token of `/a/:x+` does not throw — the builder returns `/a/1`. -/
theorem toPath_nonarray_repeat_cex :
    ((compileM "/a/:x+".toList).map fun f =>
        isErr (f [("x".toList, PVal.str ['1'])])) = some false := by
  decide

/-- C5 (amended): the builder for `/a/:x+` maps `{x:['1','2']}` to exactly
`/a/1/2` and throws on `{x:[]}`; it likewise throws when a required param
is missing, when an array value is supplied for a non-repeating token,
when a required repeating token receives an empty array, or when an
encoded value fails the token's sub-pattern check; a plain (non-array)
value for a repeat token is accepted whenever its encoding matches the
sub-pattern (`{x:'1'}` builds `/a/1`). -/
theorem toPath_repeat_build_and_throws :
    ((compileM "/a/:x+".toList).map fun f =>
        f [("x".toList, PVal.arr ["1".toList, "2".toList])]) =
      some (Except.ok "/a/1/2".toList) ∧
    ((compileM "/a/:x+".toList).map fun f => f [("x".toList, PVal.arr [])]) =
      some (Except.error BuildErr.emptyRepeat) ∧
    ((compileM "/a/:x+".toList).map fun f => f [("x".toList, PVal.str ['1'])]) =
      some (Except.ok "/a/1".toList) ∧
    (∀ (toks : List PTok) (segs : List Seg) (data : PData) (seg : Seg),
        segsOf toks = some segs → seg ∈ segs → segThrows data seg →
        isErr (toPathGo segs data) = true) :=
  ⟨by decide, by decide, by decide,
   fun _toks segs data seg _hsegs hmem hthrow => toPathGo_isErr data segs seg hmem hthrow⟩

/-- C5 witness: the throwing rule applied to the parsed `/a/:x+` with an
empty data object — the required `x` is missing, so the build fails. -/
theorem toPath_repeat_build_and_throws_inst :
    ∃ segs, segsOf (parseL "/a/:x+".toList) = some segs ∧
      isErr (toPathGo segs []) = true := by
  refine ⟨_, rfl, ?_⟩
  refine toPath_repeat_build_and_throws.2.2.2 (parseL "/a/:x+".toList) _ [] _ rfl
    (List.mem_cons_of_mem _ (List.mem_cons_self _ _)) ?_
  simp only [segThrows, lookupD]
  decide

/-- Lower-casing cannot turn a non-slash character into a slash. -/
theorem toLower_ne_slash (c : Char) (hc : c ≠ '/') : c.toLower ≠ '/' := by
  have hdef : c.toLower =
      if c.toNat ≥ 65 ∧ c.toNat ≤ 90 then Char.ofNat (c.toNat + 32) else c := rfl
  rw [hdef]
  split
  · rename_i h
    have hb : ∀ n, n < 91 → 65 ≤ n → Char.ofNat (n + 32) ≠ '/' := by decide
    exact hb c.toNat (by omega) h.1
  · exact hc

/-- Case-canonicalised comparison with `/` holds only for `/` itself. -/
theorem ciChar_slash_false (c : Char) (hc : c ≠ '/') : ciChar true '/' c = false := by
  have hdef : ciChar true '/' c = decide (Char.toLower '/' = c.toLower) := rfl
  rw [hdef]
  simp only [decide_eq_false_iff_not]
  intro h
  have h2 : Char.toLower '/' = '/' := by decide
  rw [h2] at h
  exact toLower_ne_slash c hc h.symm

/-- The literal `\/` fragment fails on any subject not starting with a
slash. -/
theorem patLit_slash_nil (r : List Char) (h : ∀ c ∈ r, c ≠ '/') :
    patLit true ['/'] r = [] := by
  cases r with
  | nil => rfl
  | cons c t =>
      have hc := ciChar_slash_false c (h c (by simp))
      simp [patLit, stripCi, hc]

/-- Every encoded byte is below 256. -/
theorem utf8Bytes_lt_256 (c : Char) : ∀ b ∈ utf8Bytes c.toNat, b < 256 := by
  have hcp : c.toNat < 1114112 := by
    have hv := c.valid
    have he : c.toNat = c.val.toNat := rfl
    rcases hv with h1 | ⟨-, h2⟩ <;> omega
  intro b hb
  revert hb
  unfold utf8Bytes
  by_cases h1 : c.toNat < 128
  · rw [if_pos h1]
    intro hb
    rcases List.mem_singleton.mp hb with rfl
    omega
  · rw [if_neg h1]
    by_cases h2 : c.toNat < 2048
    · rw [if_pos h2]
      intro hb
      have d1 : c.toNat / 64 < 32 := Nat.div_lt_of_lt_mul (by omega)
      have d2 : c.toNat % 64 < 64 := Nat.mod_lt _ (by omega)
      simp only [List.mem_cons, List.not_mem_nil, or_false] at hb
      rcases hb with rfl | rfl <;> omega
    · rw [if_neg h2]
      by_cases h3 : c.toNat < 65536
      · rw [if_pos h3]
        intro hb
        have d1 : c.toNat / 4096 < 16 := Nat.div_lt_of_lt_mul (by omega)
        have d2 : c.toNat / 64 % 64 < 64 := Nat.mod_lt _ (by omega)
        have d3 : c.toNat % 64 < 64 := Nat.mod_lt _ (by omega)
        simp only [List.mem_cons, List.not_mem_nil, or_false] at hb
        rcases hb with rfl | rfl | rfl <;> omega
      · rw [if_neg h3]
        intro hb
        have d1 : c.toNat / 262144 < 5 := Nat.div_lt_of_lt_mul (by omega)
        have d2 : c.toNat / 4096 % 64 < 64 := Nat.mod_lt _ (by omega)
        have d3 : c.toNat / 64 % 64 < 64 := Nat.mod_lt _ (by omega)
        have d4 : c.toNat % 64 < 64 := Nat.mod_lt _ (by omega)
        simp only [List.mem_cons, List.not_mem_nil, or_false] at hb
        rcases hb with rfl | rfl | rfl | rfl <;> omega

/-- A percent-escaped byte below 256 never contains a slash. -/
theorem pctEncodeByte_no_slash (b : Nat) (hb : b < 256) : '/' ∉ pctEncodeByte b := by
  have hhex : ∀ n, n < 16 → hexDigitU n ≠ '/' := by decide
  intro hm
  simp only [pctEncodeByte, List.mem_cons, List.not_mem_nil, or_false] at hm
  rcases hm with h | h | h
  · exact absurd h (by decide)
  · exact hhex (b / 16) (Nat.div_lt_of_lt_mul (by omega)) h.symm
  · exact hhex (b % 16) (Nat.mod_lt _ (by omega)) h.symm

/-- Encoding a character never produces a slash, and never produces the
empty string. -/
theorem encodeChar_no_slash (c : Char) : '/' ∉ encodeURIComponentChar c ∧
    encodeURIComponentChar c ≠ [] := by
  unfold encodeURIComponentChar
  by_cases h : uriUnreserved c = true
  · rw [if_pos h]
    refine ⟨?_, by simp⟩
    intro hm
    rcases List.mem_singleton.mp hm with rfl
    exact absurd h (by decide)
  · rw [if_neg h]
    constructor
    · intro hm
      obtain ⟨l, hl, hcl⟩ := List.mem_flatten.mp hm
      obtain ⟨b, hb, rfl⟩ := List.mem_map.mp hl
      exact pctEncodeByte_no_slash b (utf8Bytes_lt_256 c b hb) hcl
    · intro hnil
      have hne : utf8Bytes c.toNat ≠ [] := by
        unfold utf8Bytes
        by_cases h1 : c.toNat < 128
        · rw [if_pos h1]; simp
        · rw [if_neg h1]
          by_cases h2 : c.toNat < 2048
          · rw [if_pos h2]; simp
          · rw [if_neg h2]
            by_cases h3 : c.toNat < 65536
            · rw [if_pos h3]; simp
            · rw [if_neg h3]; simp
      cases hu : utf8Bytes c.toNat with
      | nil => exact hne hu
      | cons b bs =>
          rw [hu] at hnil
          simp [pctEncodeByte] at hnil

/-- The encoded form of a value contains no slash. -/
theorem encodeL_no_slash (v : List Char) : '/' ∉ encodeURIComponentL v := by
  intro hm
  obtain ⟨l, hl, hcl⟩ := List.mem_flatten.mp hm
  obtain ⟨c, -, rfl⟩ := List.mem_map.mp hl
  exact (encodeChar_no_slash c).1 hcl

/-- The encoded form of a nonempty value is nonempty. -/
theorem encodeL_ne_nil (v : List Char) (hv : v ≠ []) : encodeURIComponentL v ≠ [] := by
  cases v with
  | nil => exact absurd rfl hv
  | cons c t =>
      unfold encodeURIComponentL
      simp only [List.map_cons, List.flatten_cons]
      intro h
      exact (encodeChar_no_slash c).2 (List.append_eq_nil.mp h).1

/-- No `PATH_REGEXP` inner alternative starts at a plain character. -/
theorem tryInner_none (c : Char) (rest : List Char)
    (h1 : c ≠ ':') (h2 : c ≠ '(') (h3 : c ≠ '*') : tryInner (c :: rest) = none := by
  simp [tryInner, h1, h2, h3]

/-- No `PATH_REGEXP` match starts at a plain character whose successor
position cannot start an inner alternative either. -/
theorem tryMatchAt_none (c : Char) (t : List Char)
    (hc : plainChar c) (hnext : tryInner t = none) : tryMatchAt (c :: t) = none := by
  obtain ⟨h1, h2, h3, h4⟩ := hc
  by_cases hp : c = '/' ∨ c = '.'
  · simp [tryMatchAt, h1, hp, hnext, tryInner_none c t h2 h3 h4]
  · simp [tryMatchAt, h1, hp, tryInner_none c t h2 h3 h4]

/-- The scanner on `L ++ "/:x"` with `L` plain: the whole of `L` is
accumulated as literal text and the trailing `/:x` produces exactly the
default capture token. -/
theorem goParse_lit_colonx (L : List Char) (hL : ∀ c ∈ L, plainChar c) :
    ∀ (fuel : Nat) (path : List Char) (toks : List PTok) (key : Nat),
      L.length + 3 ≤ fuel →
      goParse fuel (L ++ "/:x".toList) path toks key =
        toks ++ (if path ++ L = [] then [] else [Sum.inl (path ++ L)]) ++ [Sum.inr xTok] := by
  induction L with
  | nil =>
      intro fuel path toks key hfuel
      obtain ⟨f, rfl⟩ : ∃ f, fuel = f + 1 := by
        cases fuel with
        | zero => omega
        | succ f => exact ⟨f, rfl⟩
      have step : goParse (f + 1) ([] ++ "/:x".toList) path toks key =
          goParse f [] []
            (toks ++ (if path = [] then [] else [Sum.inl path]) ++ [Sum.inr xTok]) key := rfl
      rw [step]
      cases f <;> simp [goParse]
  | cons c t ih =>
      intro fuel path toks key hfuel
      obtain ⟨f, rfl⟩ : ∃ f, fuel = f + 1 := by
        cases fuel with
        | zero => simp at hfuel
        | succ f => exact ⟨f, rfl⟩
      have hc := hL c (by simp)
      have htail : tryInner (t ++ "/:x".toList) = none := by
        cases t with
        | nil => decide
        | cons c' t' =>
            have hc' := hL c' (by simp)
            rw [List.cons_append]
            exact tryInner_none c' _ hc'.2.1 hc'.2.2.1 hc'.2.2.2
      have hma : tryMatchAt ((c :: t) ++ "/:x".toList) = none := by
        rw [List.cons_append]
        exact tryMatchAt_none c _ hc htail
      have step : goParse (f + 1) ((c :: t) ++ "/:x".toList) path toks key =
          goParse f (t ++ "/:x".toList) (path ++ [c]) toks key := by
        rw [List.cons_append]
        simp only [goParse]
        rw [← List.cons_append, hma]
      rw [step, ih (fun d hd => hL d (by simp [hd])) f (path ++ [c]) toks key
        (by simp only [List.length_cons] at hfuel; omega)]
      simp [List.append_assoc]

/-- `parse` on `L ++ "/:x"` with `L` plain. -/
theorem parseL_lit_colonx (L : List Char) (hL : ∀ c ∈ L, plainChar c) :
    parseL (L ++ "/:x".toList) =
      (if L = [] then [] else [Sum.inl L]) ++ [Sum.inr xTok] := by
  unfold parseL
  have h := goParse_lit_colonx L hL (L ++ "/:x".toList).length [] [] 0
    (by simp)
  simpa using h

/-- Dropping one character shifts the proper-suffix list by one. -/
theorem dropsFrom_cons (c : Char) (s : List Char) :
    dropsFrom (c :: s) = s :: dropsFrom s := by
  unfold dropsFrom
  rw [List.length_cons, List.range_succ_eq_map, List.map_cons, List.map_map]
  simp [Function.comp, List.drop_succ_cons]

/-- On a slash-free subject with enough fuel, the lazy star of the default
class offers the whole subject first and then each proper suffix, shortest
consumption first. -/
theorem patStarL_notIn (s : List Char) (hs : ∀ c ∈ s, c ≠ '/') :
    ∀ fuel, s.length ≤ fuel →
      patStarL (patNotIn ['/']) fuel s = s :: dropsFrom s := by
  induction s with
  | nil =>
      intro fuel _
      cases fuel with
      | zero => rfl
      | succ f => simp [patStarL, patNotIn, dropsFrom]
  | cons c t ih =>
      intro fuel hf
      obtain ⟨f, rfl⟩ : ∃ f, fuel = f + 1 := by
        cases fuel with
        | zero => simp [List.length_cons] at hf
        | succ f => exact ⟨f, rfl⟩
      have hc : c ∉ ['/'] := by simp [hs c (by simp)]
      have hbody : patNotIn ['/'] (c :: t) = [t] := by simp [patNotIn, hs c (by simp)]
      have step : patStarL (patNotIn ['/']) (f + 1) (c :: t) =
          (c :: t) :: ((patNotIn ['/'] (c :: t)).filter
            fun r => r.length < (c :: t).length).flatMap
              (patStarL (patNotIn ['/']) f) := rfl
      rw [step, hbody, dropsFrom_cons]
      have hflt : ([t].filter fun r => r.length < (c :: t).length) = [t] := by
        simp [List.length_cons]
      rw [hflt, List.flatMap_cons, List.flatMap_nil,
        ih (fun d hd => hs d (by simp [hd])) f
          (by simp only [List.length_cons] at hf; omega)]
      simp

/-- On a nonempty slash-free subject, the lazy plus of the default class
offers exactly the proper suffixes, shortest consumption first. -/
theorem patPlusLazy_notIn (s : List Char) (hs : ∀ c ∈ s, c ≠ '/') (hne : s ≠ []) :
    patPlusLazy (patNotIn ['/']) s = dropsFrom s := by
  cases s with
  | nil => exact absurd rfl hne
  | cons c t =>
      have hbody : patNotIn ['/'] (c :: t) = [t] := by simp [patNotIn, hs c (by simp)]
      show (patNotIn ['/'] (c :: t)).flatMap
        (fun r => patStarL (patNotIn ['/']) r.length r) = _
      rw [hbody, List.flatMap_cons, List.flatMap_nil,
        patStarL_notIn t (fun d hd => hs d (by simp [hd])) t.length (le_refl _),
        dropsFrom_cons]
      simp

/-- The non-strict trailing allowance is skipped on a slash-free
remainder. -/
theorem trailC_slashfree (r : List Char) (h : ∀ c ∈ r, c ≠ '/') :
    trailC true r = [(r, ([] : Caps))] := by
  simp [trailC, optNoCapC, seqC, litC, patLit_slash_nil r h]

/-- A leading literal strips itself off the subject and contributes no
capture. -/
theorem seqC_litC_self (L r : List Char) (X : CapsM) :
    seqC (litC true L) X (L ++ r) = X r := by
  simp [seqC, litC, patLit, stripCi_self_append]

/-- Same, one sequencing level deeper. -/
theorem seqC_litC_left (L r : List Char) (X T : CapsM) :
    seqC (seqC (litC true L) X) T (L ++ r) = seqC X T r := by
  have h : seqC (litC true L) X (L ++ r) = X r := seqC_litC_self L r X
  calc seqC (seqC (litC true L) X) T (L ++ r)
      = (seqC (litC true L) X (L ++ r)).flatMap
          (fun p => (T p.1).map fun q => (q.1, p.2 ++ q.2)) := rfl
    _ = (X r).flatMap (fun p => (T p.1).map fun q => (q.1, p.2 ++ q.2)) := by rw [h]
    _ = seqC X T r := rfl

/-- The empty fragment is a right unit for sequencing. -/
theorem seqC_epsC (X : CapsM) (s : List Char) : seqC X epsC s = X s := by
  simp [seqC, epsC]

/-- The capture branches of the default token class on a nonempty
slash-free subject: consuming k+1 characters leaves the corresponding
suffix and captures the corresponding front segment. -/
theorem capC_plusLazy_notIn (E : List Char) (hE : E ≠ []) (hs : ∀ c ∈ E, c ≠ '/') :
    capC (patPlusLazy (patNotIn ['/'])) E =
      (List.range E.length).map fun k =>
        (E.drop (k + 1), ([some (E.take (k + 1))] : Caps)) := by
  show (patPlusLazy (patNotIn ['/']) E).map
      (fun r => (r, [some (E.take (E.length - r.length))])) = _
  rw [patPlusLazy_notIn E hs hE]
  unfold dropsFrom
  rw [List.map_map]
  apply List.map_congr_left
  intro k hk
  have hk' : k < E.length := List.mem_range.mp hk
  simp only [Function.comp_apply, List.length_drop]
  have harith : E.length - (E.length - (k + 1)) = k + 1 := by omega
  rw [harith]

/-- The matcher fragment of the default `/:x` token run past its
prefix slash. -/
theorem xTokM_run (E : List Char) (hE : E ≠ []) (hs : ∀ c ∈ E, c ≠ '/') :
    xTokM ('/' :: E) =
      (List.range E.length).map fun k =>
        (E.drop (k + 1), ([some (E.take (k + 1))] : Caps)) := by
  show seqC (litC true ['/']) (capC (patPlusLazy (patNotIn ['/']))) (['/'] ++ E) = _
  rw [seqC_litC_self, capC_plusLazy_notIn E hE hs]

/-- The anchored non-strict matcher for the default `/:x` token on a
nonempty slash-free final segment: the survivors are exactly the lazy
branches, with their captures. -/
theorem whole_run_x (E : List Char) (hE : E ≠ []) (hs : ∀ c ∈ E, c ≠ '/') :
    seqC (seqC xTokM epsC) (trailC true) ('/' :: E) =
      (List.range E.length).map fun k =>
        (E.drop (k + 1), ([some (E.take (k + 1))] : Caps)) := by
  have h1 : seqC xTokM epsC ('/' :: E) = xTokM ('/' :: E) := seqC_epsC _ _
  have h2 : seqC (seqC xTokM epsC) (trailC true) ('/' :: E) =
      (seqC xTokM epsC ('/' :: E)).flatMap
        (fun p => (trailC true p.1).map fun q => (q.1, p.2 ++ q.2)) := rfl
  have h3 : ∀ ks : List Nat,
      ((ks.map fun k => (E.drop (k + 1), ([some (E.take (k + 1))] : Caps))).flatMap
        fun p => (trailC true p.1).map fun q => (q.1, p.2 ++ q.2)) =
      ks.map fun k => (E.drop (k + 1), ([some (E.take (k + 1))] : Caps)) := by
    intro ks
    induction ks with
    | nil => rfl
    | cons a l ih =>
        rw [List.map_cons, List.flatMap_cons,
          trailC_slashfree _ (fun c hc => hs c (List.mem_of_mem_drop hc)), ih]
        simp
  rw [h2, h1, xTokM_run E hE hs, h3]

/-- Anchoring keeps only the full-consumption branch, which is the last
offered and captures the entire segment. -/
theorem filter_head_drops (E : List Char) (hE : E ≠ []) :
    (((List.range E.length).map fun k =>
        (E.drop (k + 1), ([some (E.take (k + 1))] : Caps))).filter
      fun p => p.1 = []).head? = some ([], [some E]) := by
  obtain ⟨n, hn⟩ : ∃ n, E.length = n + 1 := by
    cases E with
    | nil => exact absurd rfl hE
    | cons c t => exact ⟨t.length, by simp⟩
  rw [hn, List.range_succ, List.map_append, List.filter_append]
  have h1 : ((List.range n).map fun k =>
      (E.drop (k + 1), ([some (E.take (k + 1))] : Caps))).filter
        (fun p => decide (p.1 = [])) = [] := by
    rw [List.filter_eq_nil_iff]
    intro p hp
    obtain ⟨k, hk, rfl⟩ := List.mem_map.mp hp
    have hk' : k < n := List.mem_range.mp hk
    simp only [decide_eq_true_eq]
    intro hdrop
    have hlen := List.drop_eq_nil_iff.mp hdrop
    omega
  rw [h1]
  have h2 : E.drop (n + 1) = [] := by
    rw [← hn]; exact List.drop_length E
  have h3 : E.take (n + 1) = E := by
    rw [← hn]; exact List.take_length E
  simp [h2, h3]

/-- The default sub-pattern accepts any nonempty slash-free string in
full. -/
theorem patFullTest_encode (E : List Char) (hE : E ≠ []) (hs : ∀ c ∈ E, c ≠ '/') :
    patFullTest (patPlusLazy (patNotIn ['/'])) E = true := by
  rw [patFullTest, patPlusLazy_notIn E hs hE, List.any_eq_true]
  obtain ⟨n, hn⟩ : ∃ n, E.length = n + 1 := by
    cases E with
    | nil => exact absurd rfl hE
    | cons c t => exact ⟨t.length, by simp⟩
  refine ⟨[], ?_, by simp⟩
  unfold dropsFrom
  refine List.mem_map.mpr ⟨n, List.mem_range.mpr (by omega), ?_⟩
  rw [← hn]
  exact List.drop_length E

/-- The path builder's handling of the default `/:x` capture token on a
nonempty slash-free string value: encode, validate (which succeeds), and
append behind the prefix slash. -/
theorem toPathGo_cap_x (v : List Char) (hv : v ≠ []) :
    toPathGo [Seg.cap (patFullTest (patPlusLazy (patNotIn ['/']))) xTok]
      [(['x'], PVal.str v)] = .ok ('/' :: encodeURIComponentL v) := by
  have hE : encodeURIComponentL v ≠ [] := encodeL_ne_nil v hv
  have hs : ∀ c ∈ encodeURIComponentL v, c ≠ '/' := fun c hc hne =>
    encodeL_no_slash v (hne ▸ hc)
  have hl : lookupD [(['x'], PVal.str v)] (keyName xTok.name) = some (PVal.str v) := rfl
  simp only [toPathGo, hl]
  rw [patFullTest_encode _ hE hs]
  simp [toPathGo, xTok, Except.map]

/-- C4: the spec's round-trip sentence, corrected.  For a route pattern
that is a plain literal followed by the default capture `/:x`, building a
path from a nonempty slash-free value `v` produces the literal, a slash,
and `encodeURIComponent(v)`; running the compiled route regexp on that
very path captures the ENCODED text `encodeURIComponent(v)` — which equals
the original `v` exactly when percent-encoding leaves `v` unchanged
(`tokensToRegExp` performs no decoding of its own; `Route.match`'s
separate `decodeURIComponent` step is what restores `v`). -/
theorem roundtrip_capture_encoded (L v : List Char)
    (hL : ∀ c ∈ L, plainChar c) (hv : v ≠ []) (_hvd : '/' ∉ v) :
    ∃ (bf : PData → Except BuildErr (List Char)) (ef : ExecFn),
      tokensToFunctionM (parseL (L ++ "/:x".toList)) = some bf ∧
      bf [(['x'], PVal.str v)] = .ok (L ++ '/' :: encodeURIComponentL v) ∧
      tokensToRegExpM (parseL (L ++ "/:x".toList)) false false = some ef ∧
      ef (L ++ '/' :: encodeURIComponentL v) = some [some (encodeURIComponentL v)] ∧
      (encodeURIComponentL v = v →
        ef (L ++ '/' :: v) = some [some v]) := by
  have hE : encodeURIComponentL v ≠ [] := encodeL_ne_nil v hv
  have hs : ∀ c ∈ encodeURIComponentL v, c ≠ '/' := fun c hc hne =>
    encodeL_no_slash v (hne ▸ hc)
  have hparse := parseL_lit_colonx L hL
  by_cases h0 : L = []
  · subst h0
    rw [if_pos rfl, List.nil_append] at hparse
    refine ⟨fun data => toPathGo
        [Seg.cap (patFullTest (patPlusLazy (patNotIn ['/']))) xTok] data,
      fun s => (((seqC (seqC xTokM epsC) (trailC true) s).filter
        fun p => p.1 = []).head?).map Prod.snd, ?_, ?_, ?_, ?_, ?_⟩
    · rw [List.nil_append, hparse]; rfl
    · simpa using toPathGo_cap_x v hv
    · rw [List.nil_append, hparse]; rfl
    · show ((((seqC (seqC xTokM epsC) (trailC true))
          ([] ++ '/' :: encodeURIComponentL v)).filter
            fun p => p.1 = []).head?).map Prod.snd = _
      rw [List.nil_append, whole_run_x _ hE hs, filter_head_drops _ hE]
      rfl
    · intro henc
      show ((((seqC (seqC xTokM epsC) (trailC true)) ([] ++ '/' :: v)).filter
          fun p => p.1 = []).head?).map Prod.snd = _
      rw [List.nil_append, ← henc, whole_run_x _ hE hs, filter_head_drops _ hE]
      rfl
  · rw [if_neg h0] at hparse
    refine ⟨fun data => toPathGo
        (Seg.lit L :: [Seg.cap (patFullTest (patPlusLazy (patNotIn ['/']))) xTok]) data,
      fun s => (((seqC (seqC (litC true L) (seqC xTokM epsC)) (trailC true) s).filter
        fun p => p.1 = []).head?).map Prod.snd, ?_, ?_, ?_, ?_, ?_⟩
    · rw [hparse]; rfl
    · show (toPathGo [Seg.cap (patFullTest (patPlusLazy (patNotIn ['/']))) xTok]
          [(['x'], PVal.str v)]).map (fun p => L ++ p) = _
      rw [toPathGo_cap_x v hv]
      rfl
    · rw [hparse]; rfl
    · show ((((seqC (seqC (litC true L) (seqC xTokM epsC)) (trailC true))
          (L ++ '/' :: encodeURIComponentL v)).filter
            fun p => p.1 = []).head?).map Prod.snd = _
      rw [seqC_litC_left, whole_run_x _ hE hs, filter_head_drops _ hE]
      rfl
    · intro henc
      show ((((seqC (seqC (litC true L) (seqC xTokM epsC)) (trailC true))
          (L ++ '/' :: v)).filter fun p => p.1 = []).head?).map Prod.snd = _
      rw [← henc, seqC_litC_left, whole_run_x _ hE hs, filter_head_drops _ hE]
      rfl

/-- C4, counterexample to the literal reading: compiling `/a/:x` and
building with `x = ' '` yields the path `/a/%20`; running the compiled
route regexp on that path captures the encoded text `%20`, not the
original value `' '` — the regexp layer never decodes. -/
theorem roundtrip_literal_capture_cex :
    (compileM "/a/:x".toList).map (fun bf => bf [(['x'], PVal.str [' '])]) =
      some (.ok "/a/%20".toList) ∧
    (stringToRegexpM "/a/:x".toList false false).map
      (fun pr => pr.1 "/a/%20".toList) = some (some [some "%20".toList]) ∧
    "%20".toList ≠ [' '] := by
  refine ⟨by decide, by decide, by decide⟩

/-- Instantiation of the round-trip theorem at the pattern `/a/:x` and the
value `' '`. -/
theorem roundtrip_capture_encoded_inst :
    (∀ c ∈ ['/', 'a'], plainChar c) ∧
    ∃ (bf : PData → Except BuildErr (List Char)) (ef : ExecFn),
      tokensToFunctionM (parseL (['/', 'a'] ++ "/:x".toList)) = some bf ∧
      bf [(['x'], PVal.str [' '])] =
        .ok (['/', 'a'] ++ '/' :: encodeURIComponentL [' ']) ∧
      tokensToRegExpM (parseL (['/', 'a'] ++ "/:x".toList)) false false = some ef ∧
      ef (['/', 'a'] ++ '/' :: encodeURIComponentL [' ']) =
        some [some (encodeURIComponentL [' '])] ∧
      (encodeURIComponentL [' '] = [' '] →
        ef (['/', 'a'] ++ '/' :: [' ']) = some [some [' ']]) :=
  ⟨by decide,
    roundtrip_capture_encoded ['/', 'a'] [' '] (by decide) (by decide) (by decide)⟩

end PageJs
